import Mathlib

/-!
Verification of the Jarvis command-line engine suite (Go sources) against its
natural-language specification.  Each namespace below is a shallow embedding of
one engine: pure Go functions become Lean functions on `List`/`String`/`Int`
data, file contents are passed explicitly as line lists or character lists, and
the nondeterministic delivery order of worker-pool result channels is modelled
by quantifying over permutations of the per-item result lists.
-/

namespace Diff

/-- Slice of a list between two indices: the elements at positions
`[a, b)`.  Helper used to state facts about the diff engine. -/
def seg {α : Type} (l : List α) (a b : Nat) : List α :=
  (l.drop a).take (b - a)

/-- DiffHunk record from the diff engine source: old/new ranges (1-based
start, count) plus the tagged lines (`" "` context, `"-"` removed, `"+"`
added, tag prepended to the line text exactly as in the Go code). -/
structure DiffHunk where
  oldStart : Nat
  oldCount : Nat
  newStart : Nat
  newCount : Nat
  lines : List String
deriving Repr, DecidableEq

/-- Length of the run of pairwise-equal lines of `old`/`new` starting at
positions `i`/`j`.  This is the count computed by the inner
`for k := 0; old[i+k] == new[j+k]; k++` loop of `computeDiff`.  Out-of-range
reads are guarded by the bounds tests, exactly as in the Go loop condition. -/
def matchLen (old new : List String) (i j : Nat) : Nat :=
  if h : i < old.length ∧ j < new.length ∧ old.getD i "" = new.getD j "" then
    matchLen old new (i+1) (j+1) + 1
  else 0
termination_by old.length - i
decreasing_by omega

/-- Inner divergence loop of `computeDiff` (the `for i < len(old) || j < len(new)`
loop that fills one hunk's `lines`).  State is the pair of cursors `i`, `j`
plus the accumulated tagged lines; the function returns the final lines and
cursors.  The `2*ctx < matchLen` branch emits `min ctx (len(old)-i)` trailing
context lines (the Go loop guard is `k < ctx && i < len(old)`) and breaks. -/
def hunkLoop (old new : List String) (ctx : Nat) (i j : Nat) (lines : List String) :
    List String × Nat × Nat :=
  if hij : i < old.length ∨ j < new.length then
    if heq : i < old.length ∧ j < new.length ∧ old.getD i "" = new.getD j "" then
      if 2*ctx < matchLen old new i j then
        (lines ++ (seg old i (i + min ctx (old.length - i))).map (fun l => " " ++ l),
         i + min ctx (old.length - i), j + min ctx (old.length - i))
      else
        hunkLoop old new ctx (i+1) (j+1) (lines ++ [" " ++ old.getD i ""])
    else if hi : i < old.length then
      hunkLoop old new ctx (i+1) j (lines ++ ["-" ++ old.getD i ""])
    else
      hunkLoop old new ctx i (j+1) (lines ++ ["+" ++ new.getD j ""])
  else (lines, i, j)
termination_by (old.length - i) + (new.length - j)
decreasing_by all_goals omega

/-- Hunk start index (0-based) chosen by `computeDiff`: `max(0, i-ctx)`,
written with truncated natural subtraction. -/
def hStart (ctx i1 : Nat) : Nat := i1 - min ctx i1

/-- One divergence region of `computeDiff`: run `hunkLoop` starting from the
leading context lines `old[hStart ctx i1 .. i1)`. -/
def openHunk (old new : List String) (ctx i1 j1 : Nat) : List String × Nat × Nat :=
  hunkLoop old new ctx i1 j1 ((seg old (hStart ctx i1) i1).map (fun l => " " ++ l))

theorem matchLen_le_old (old new : List String) (i j : Nat) :
    matchLen old new i j ≤ old.length - i := by
  induction i, j using matchLen.induct old new with
  | case1 i j h ih => rw [matchLen, dif_pos h]; omega
  | case2 i j h => rw [matchLen, dif_neg h]; omega

theorem matchLen_le_new (old new : List String) (i j : Nat) :
    matchLen old new i j ≤ new.length - j := by
  induction i, j using matchLen.induct old new with
  | case1 i j h ih => rw [matchLen, dif_pos h]; omega
  | case2 i j h => rw [matchLen, dif_neg h]; omega

theorem matchLen_spec (old new : List String) (i j : Nat) :
    ∀ k < matchLen old new i j, old.getD (i+k) "" = new.getD (j+k) "" := by
  induction i, j using matchLen.induct old new with
  | case1 i j h ih =>
    intro k hk
    match k with
    | 0 => simpa using h.2.2
    | k+1 =>
      rw [matchLen, dif_pos h] at hk
      have e1 : i + (k+1) = (i+1)+k := by omega
      have e2 : j + (k+1) = (j+1)+k := by omega
      rw [e1, e2]
      exact ih k (by omega)
  | case2 i j h => rw [matchLen, dif_neg h]; omega

theorem matchLen_exhaust (old new : List String) (i j : Nat) :
    ¬(i + matchLen old new i j < old.length ∧ j + matchLen old new i j < new.length ∧
      old.getD (i + matchLen old new i j) "" = new.getD (j + matchLen old new i j) "") := by
  induction i, j using matchLen.induct old new with
  | case1 i j h ih =>
    have e1 : i + (matchLen old new (i+1) (j+1) + 1) = (i+1) + matchLen old new (i+1) (j+1) := by
      omega
    have e2 : j + (matchLen old new (i+1) (j+1) + 1) = (j+1) + matchLen old new (i+1) (j+1) := by
      omega
    rw [matchLen, dif_pos h, e1, e2]
    exact ih
  | case2 i j h => rw [matchLen, dif_neg h]; simpa using h

theorem matchLen_add (old new : List String) (i j k : Nat) (hk : k ≤ matchLen old new i j) :
    matchLen old new i j = k + matchLen old new (i+k) (j+k) := by
  induction k with
  | zero => simp
  | succ n ih =>
    have h1 : n ≤ matchLen old new i j := by omega
    have h2 := ih h1
    have h3 : 0 < matchLen old new (i+n) (j+n) := by omega
    by_cases hc : (i+n) < old.length ∧ (j+n) < new.length ∧
        old.getD (i+n) "" = new.getD (j+n) ""
    · have hstep : matchLen old new (i+n) (j+n) = matchLen old new (i+n+1) (j+n+1) + 1 := by
        rw [matchLen, dif_pos hc]
      have e1 : i + (n+1) = i+n+1 := by omega
      have e2 : j + (n+1) = j+n+1 := by omega
      rw [e1, e2]; omega
    · have hzero : matchLen old new (i+n) (j+n) = 0 := by rw [matchLen, dif_neg hc]
      omega

theorem hunkLoop_measure_le (old new : List String) (ctx : Nat) (i j : Nat)
    (lines : List String) :
    (old.length - (hunkLoop old new ctx i j lines).2.1) +
      (new.length - (hunkLoop old new ctx i j lines).2.2) ≤
    (old.length - i) + (new.length - j) := by
  induction i, j, lines using hunkLoop.induct old new ctx with
  | case1 i j lines hij heq hm =>
    rw [hunkLoop, dif_pos hij, dif_pos heq, if_pos hm]; dsimp only; omega
  | case2 i j lines hij heq hm ih =>
    rw [hunkLoop, dif_pos hij, dif_pos heq, if_neg hm]; omega
  | case3 i j lines hij heq hi ih =>
    rw [hunkLoop, dif_pos hij, dif_neg heq, dif_pos hi]; omega
  | case4 i j lines hij heq hi ih =>
    rw [hunkLoop, dif_pos hij, dif_neg heq, dif_neg hi]; omega
  | case5 i j lines hij => rw [hunkLoop, dif_neg hij]

theorem hunkLoop_measure_lt (old new : List String) (ctx : Nat) (i j : Nat)
    (lines : List String)
    (h1 : i < old.length ∨ j < new.length)
    (h2 : ¬(i < old.length ∧ j < new.length ∧ old.getD i "" = new.getD j "")) :
    (old.length - (hunkLoop old new ctx i j lines).2.1) +
      (new.length - (hunkLoop old new ctx i j lines).2.2) <
    (old.length - i) + (new.length - j) := by
  by_cases hi : i < old.length
  · rw [hunkLoop, dif_pos h1, dif_neg h2, dif_pos hi]
    have := hunkLoop_measure_le old new ctx (i+1) j (lines ++ ["-" ++ old.getD i ""])
    omega
  · rw [hunkLoop, dif_pos h1, dif_neg h2, dif_neg hi]
    have hj : j < new.length := by omega
    have := hunkLoop_measure_le old new ctx i (j+1) (lines ++ ["+" ++ new.getD j ""])
    omega

theorem openHunk_measure_lt (old new : List String) (ctx i1 j1 : Nat)
    (h1 : i1 < old.length ∨ j1 < new.length)
    (h2 : ¬(i1 < old.length ∧ j1 < new.length ∧ old.getD i1 "" = new.getD j1 "")) :
    (old.length - (openHunk old new ctx i1 j1).2.1) +
      (new.length - (openHunk old new ctx i1 j1).2.2) <
    (old.length - i1) + (new.length - j1) :=
  hunkLoop_measure_lt old new ctx i1 j1 _ h1 h2

/-- Outer loop of `computeDiff`: silently advance over the matching run, stop
when both inputs are exhausted, otherwise emit a hunk for the divergence
region (appended only when its line list is non-empty, as in the Go code)
and continue from the hunk's final cursors. -/
def diffLoop (old new : List String) (ctx : Nat) (i j : Nat) : List DiffHunk :=
  if h : i + matchLen old new i j < old.length ∨ j + matchLen old new i j < new.length then
    (if (openHunk old new ctx (i + matchLen old new i j) (j + matchLen old new i j)).1.isEmpty
     then []
     else
      [{ oldStart := hStart ctx (i + matchLen old new i j) + 1,
         oldCount := (openHunk old new ctx (i + matchLen old new i j)
                        (j + matchLen old new i j)).2.1 -
                     hStart ctx (i + matchLen old new i j),
         newStart := hStart ctx (i + matchLen old new i j) + 1,
         newCount := (openHunk old new ctx (i + matchLen old new i j)
                        (j + matchLen old new i j)).2.2 -
                     hStart ctx (i + matchLen old new i j),
         lines := (openHunk old new ctx (i + matchLen old new i j)
                        (j + matchLen old new i j)).1 }]) ++
    diffLoop old new ctx
      (openHunk old new ctx (i + matchLen old new i j) (j + matchLen old new i j)).2.1
      (openHunk old new ctx (i + matchLen old new i j) (j + matchLen old new i j)).2.2
  else []
termination_by (old.length - i) + (new.length - j)
decreasing_by
  have hex := matchLen_exhaust old new i j
  have hlt := openHunk_measure_lt old new ctx (i + matchLen old new i j)
    (j + matchLen old new i j) h hex
  omega

/-- Two-file line diff `computeDiff` from the diff engine source. -/
def computeDiff (old new : List String) (ctx : Nat) : List DiffHunk :=
  diffLoop old new ctx 0 0

/-- Textual unified patch rendering `generatePatch` from the source: a
two-line file header followed by one `@@` header per hunk and its lines. -/
def generatePatch (oldPath newPath : String) (hunks : List DiffHunk) : String :=
  "--- " ++ oldPath ++ "\n+++ " ++ newPath ++ "\n" ++
  String.join (hunks.map (fun h =>
    "@@ -" ++ toString h.oldStart ++ "," ++ toString h.oldCount ++ " +" ++
    toString h.newStart ++ "," ++ toString h.newCount ++ " @@\n" ++
    String.join (h.lines.map (fun l => l ++ "\n"))))

/-- Tag test for a rendered diff line: true when the line carries the
`"-"` (removed) tag.  The tag is the first character of the stored string. -/
def isDelTag (l : String) : Bool := l.data.take 1 = ['-']

/-- Tag test for a rendered diff line: true when the line carries the
`"+"` (added) tag. -/
def isAddTag (l : String) : Bool := l.data.take 1 = ['+']

/-- Drop the one-character tag of a rendered diff line. -/
def stripTag (l : String) : String := String.mk (l.data.drop 1)

/-- Modelled from the spec: the repository ships no patch applier, so the
standard semantics of applying unified-diff hunks is modelled here.  The lines
a hunk contributes to the patched file are its context and added lines with
the tag stripped. -/
def hunkNewLines (lines : List String) : List String :=
  (lines.filter (fun l => !isDelTag l)).map stripTag

/-- Modelled from the spec: apply hunks in order to the old line sequence.
`pos` is the cursor into `old`; each hunk copies the untouched lines before
its old range, replaces the `oldCount` lines starting at `oldStart` (1-based)
with its context-plus-added payload, and the tail after the last hunk is
copied verbatim. -/
def applyFrom (old : List String) (pos : Nat) : List DiffHunk → List String
  | [] => old.drop pos
  | h :: hs =>
    seg old pos (h.oldStart - 1) ++ hunkNewLines h.lines ++
      applyFrom old ((h.oldStart - 1) + h.oldCount) hs

/-- Modelled from the spec: apply a whole unified patch to the old file. -/
def applyHunks (old : List String) (hunks : List DiffHunk) : List String :=
  applyFrom old 0 hunks

/-- Count of lines of a hunk tagged context or removed (the old-file side). -/
def oldSideCount (lines : List String) : Nat :=
  (lines.filter (fun l => !isAddTag l)).length

/-- Count of lines of a hunk tagged context or added (the new-file side). -/
def newSideCount (lines : List String) : Nat :=
  (lines.filter (fun l => !isDelTag l)).length

theorem data_append_cons (c : Char) (cs : String) (s : String) (h : cs.data = [c]) :
    (cs ++ s).data = c :: s.data := by
  rw [String.data_append, h]; rfl

theorem isDelTag_ctx (s : String) : isDelTag (" " ++ s) = false := by
  simp [isDelTag, data_append_cons ' ' " " s rfl]

theorem isDelTag_add (s : String) : isDelTag ("+" ++ s) = false := by
  simp [isDelTag, data_append_cons '+' "+" s rfl]

theorem isDelTag_del (s : String) : isDelTag ("-" ++ s) = true := by
  simp [isDelTag, data_append_cons '-' "-" s rfl]

theorem stripTag_ctx (s : String) : stripTag (" " ++ s) = s := by
  simp only [stripTag, data_append_cons ' ' " " s rfl, List.drop_succ_cons, List.drop_zero]

theorem stripTag_add (s : String) : stripTag ("+" ++ s) = s := by
  simp only [stripTag, data_append_cons '+' "+" s rfl, List.drop_succ_cons, List.drop_zero]

theorem hunkNewLines_append (xs ys : List String) :
    hunkNewLines (xs ++ ys) = hunkNewLines xs ++ hunkNewLines ys := by
  simp [hunkNewLines]

theorem hunkNewLines_ctx_single (s : String) : hunkNewLines [" " ++ s] = [s] := by
  simp [hunkNewLines, isDelTag_ctx, stripTag_ctx]

theorem hunkNewLines_add_single (s : String) : hunkNewLines ["+" ++ s] = [s] := by
  simp [hunkNewLines, isDelTag_add, stripTag_add]

theorem hunkNewLines_del_single (s : String) : hunkNewLines ["-" ++ s] = [] := by
  simp [hunkNewLines, isDelTag_del]

theorem hunkNewLines_ctx_map (xs : List String) :
    hunkNewLines (xs.map (fun l => " " ++ l)) = xs := by
  induction xs with
  | nil => simp [hunkNewLines]
  | cons x xs ih =>
    have : (x :: xs).map (fun l => " " ++ l) = [" " ++ x] ++ xs.map (fun l => " " ++ l) := by
      simp
    rw [this, hunkNewLines_append, hunkNewLines_ctx_single, ih]
    rfl

theorem seg_self (l : List α) (a : Nat) : seg l a a = [] := by
  simp [seg]

theorem seg_length (l : List α) (a b : Nat) (hb : b ≤ l.length) (hab : a ≤ b) :
    (seg l a b).length = b - a := by
  simp [seg]; omega

theorem seg_getElem (l : List α) (a b k : Nat) (hk : k < (seg l a b).length)
    (hak : a + k < l.length) :
    (seg l a b)[k] = l[a + k] := by
  simp only [seg] at hk ⊢
  rw [List.getElem_take, List.getElem_drop]

theorem seg_append_drop (l : List α) (a b : Nat) (hab : a ≤ b) :
    seg l a b ++ l.drop b = l.drop a := by
  have hb : l.drop b = (l.drop a).drop (b - a) := by
    rw [List.drop_drop]; congr 1; omega
  rw [seg, hb, List.take_append_drop]

theorem seg_split (l : List α) (a b c : Nat) (hab : a ≤ b) (hbc : b ≤ c) :
    seg l a b ++ seg l b c = seg l a c := by
  have hb : l.drop b = (l.drop a).drop (b - a) := by
    rw [List.drop_drop]; congr 1; omega
  have hc : c - a = (b - a) + (c - b) := by omega
  rw [seg, seg, seg, hb, hc, List.take_add]

theorem seg_cons (l : List α) (d : α) (a b : Nat) (ha : a < l.length) (hab : a + 1 ≤ b) :
    l.getD a d :: seg l (a+1) b = seg l a b := by
  have h1 : l.drop a = l[a] :: l.drop (a+1) := List.drop_eq_getElem_cons ha
  have h2 : b - a = (b - (a+1)) + 1 := by omega
  rw [seg, seg, h1, h2, List.take_succ_cons, List.getD_eq_getElem l d ha]

theorem getD_eq_getElem_of_lt (l : List α) (d : α) (a : Nat) (ha : a < l.length) :
    l.getD a d = l[a] := List.getD_eq_getElem l d ha

/-- Alignment of slices inside a matching run: a window of `old` inside the
run starting at `(i, j)` equals the corresponding window of `new`. -/
theorem seg_align (old new : List String) (i j a b : Nat)
    (hia : i ≤ a) (hab : a ≤ b) (hbm : b ≤ i + matchLen old new i j) :
    seg old a b = seg new (j + (a - i)) (j + (b - i)) := by
  have hmo := matchLen_le_old old new i j
  have hmn := matchLen_le_new old new i j
  by_cases hb : b ≤ i
  · have hab' : a = b := by omega
    rw [hab', seg_self, seg_self]
  · have hm1 : 1 ≤ matchLen old new i j := by omega
    have hio : i < old.length := by omega
    have hbl : b ≤ old.length := by omega
    have hbn : j + (b - i) ≤ new.length := by omega
    apply List.ext_getElem
    · rw [seg_length old a b hbl hab, seg_length new _ _ hbn (by omega)]
      omega
    · intro k hk1 hk2
      have hak : a + k < old.length := by
        rw [seg_length old a b hbl hab] at hk1; omega
      have hjk : j + (a - i) + k < new.length := by
        rw [seg_length old a b hbl hab] at hk1; omega
      rw [seg_getElem old a b k hk1 hak, seg_getElem new _ _ k hk2 hjk]
      have hspec := matchLen_spec old new i j (a - i + k)
        (by rw [seg_length old a b hbl hab] at hk1; omega)
      have e1 : i + (a - i + k) = a + k := by omega
      have e2 : j + (a - i + k) = j + (a - i) + k := by omega
      rw [e1, e2] at hspec
      rw [getD_eq_getElem_of_lt old "" _ hak, getD_eq_getElem_of_lt new "" _ hjk] at hspec
      exact hspec

theorem hunkLoop_len_ge (old new : List String) (ctx : Nat) (i j : Nat) (lines : List String) :
    lines.length ≤ (hunkLoop old new ctx i j lines).1.length := by
  induction i, j, lines using hunkLoop.induct old new ctx with
  | case1 i j lines hij heq hm =>
    rw [hunkLoop, dif_pos hij, dif_pos heq, if_pos hm]; dsimp only
    simp
  | case2 i j lines hij heq hm ih =>
    rw [hunkLoop, dif_pos hij, dif_pos heq, if_neg hm]
    have hlen : (lines ++ [" " ++ old.getD i ""]).length = lines.length + 1 := by simp
    omega
  | case3 i j lines hij heq hi ih =>
    rw [hunkLoop, dif_pos hij, dif_neg heq, dif_pos hi]
    have hlen : (lines ++ ["-" ++ old.getD i ""]).length = lines.length + 1 := by simp
    omega
  | case4 i j lines hij heq hi ih =>
    rw [hunkLoop, dif_pos hij, dif_neg heq, dif_neg hi]
    have hlen : (lines ++ ["+" ++ new.getD j ""]).length = lines.length + 1 := by simp
    omega
  | case5 i j lines hij => rw [hunkLoop, dif_neg hij]

theorem hunkLoop_ne_nil (old new : List String) (ctx : Nat) (i j : Nat) (lines : List String)
    (h1 : i < old.length ∨ j < new.length)
    (h2 : ¬(i < old.length ∧ j < new.length ∧ old.getD i "" = new.getD j "")) :
    (hunkLoop old new ctx i j lines).1 ≠ [] := by
  have hlen : lines.length + 1 ≤ (hunkLoop old new ctx i j lines).1.length := by
    by_cases hi : i < old.length
    · rw [hunkLoop, dif_pos h1, dif_neg h2, dif_pos hi]
      have := hunkLoop_len_ge old new ctx (i+1) j (lines ++ ["-" ++ old.getD i ""])
      have hlen : (lines ++ ["-" ++ old.getD i ""]).length = lines.length + 1 := by simp
      omega
    · rw [hunkLoop, dif_pos h1, dif_neg h2, dif_neg hi]
      have := hunkLoop_len_ge old new ctx i (j+1) (lines ++ ["+" ++ new.getD j ""])
      have hlen : (lines ++ ["+" ++ new.getD j ""]).length = lines.length + 1 := by simp
      omega
  intro hnil
  rw [hnil] at hlen
  simp at hlen

/-- Full functional specification of `hunkLoop`: the final cursors stay in
bounds and advance, the new-file side of the emitted tagged lines is exactly
the window `new[j .. j')`, and on exit either both files are exhausted or the
remaining matching run is longer than `ctx` (the break branch consumed `ctx`
of a run longer than `2*ctx`). -/
theorem hunkLoop_spec (old new : List String) (ctx : Nat) (i j : Nat) (lines : List String) :
    i ≤ old.length → j ≤ new.length →
    ((hunkLoop old new ctx i j lines).2.1 ≤ old.length ∧
     (hunkLoop old new ctx i j lines).2.2 ≤ new.length ∧
     i ≤ (hunkLoop old new ctx i j lines).2.1 ∧
     j ≤ (hunkLoop old new ctx i j lines).2.2 ∧
     hunkNewLines (hunkLoop old new ctx i j lines).1 =
       hunkNewLines lines ++ seg new j (hunkLoop old new ctx i j lines).2.2 ∧
     (((hunkLoop old new ctx i j lines).2.1 = old.length ∧
       (hunkLoop old new ctx i j lines).2.2 = new.length) ∨
      ctx < matchLen old new (hunkLoop old new ctx i j lines).2.1
        (hunkLoop old new ctx i j lines).2.2)) := by
  induction i, j, lines using hunkLoop.induct old new ctx with
  | case1 i j lines hij heq hm =>
    intro hi hj
    have hmo := matchLen_le_old old new i j
    have hmn := matchLen_le_new old new i j
    have he : min ctx (old.length - i) = ctx := by omega
    rw [hunkLoop, dif_pos hij, dif_pos heq, if_pos hm]; dsimp only
    rw [he]
    have halign := seg_align old new i j i (i+ctx) (le_refl i) (by omega) (by omega)
    have e1 : j + (i - i) = j := by omega
    have e2 : j + (i + ctx - i) = j + ctx := by omega
    rw [e1, e2] at halign
    refine ⟨by omega, by omega, by omega, by omega, ?_, Or.inr ?_⟩
    · rw [hunkNewLines_append, hunkNewLines_ctx_map, halign]
    · have hadd := matchLen_add old new i j ctx (by omega)
      omega
  | case2 i j lines hij heq hm ih =>
    intro hi hj
    rw [hunkLoop, dif_pos hij, dif_pos heq, if_neg hm]
    obtain ⟨b1, b2, b3, b4, hnew, hexit⟩ := ih (by omega) (by omega)
    set r2 := hunkLoop old new ctx (i+1) (j+1) (lines ++ [" " ++ old.getD i ""]) with hr
    refine ⟨b1, b2, by omega, by omega, ?_, hexit⟩
    rw [hnew, hunkNewLines_append, hunkNewLines_ctx_single, List.append_assoc,
      List.singleton_append, heq.2.2, seg_cons new "" j _ heq.2.1 (by omega)]
  | case3 i j lines hij heq hi ih =>
    intro hi' hj
    rw [hunkLoop, dif_pos hij, dif_neg heq, dif_pos hi]
    obtain ⟨b1, b2, b3, b4, hnew, hexit⟩ := ih (by omega) hj
    refine ⟨b1, b2, by omega, b4, ?_, hexit⟩
    rw [hnew, hunkNewLines_append, hunkNewLines_del_single, List.append_nil]
  | case4 i j lines hij heq hi ih =>
    intro hi' hj
    have hj0 : j < new.length := by omega
    rw [hunkLoop, dif_pos hij, dif_neg heq, dif_neg hi]
    obtain ⟨b1, b2, b3, b4, hnew, hexit⟩ := ih hi' (by omega)
    refine ⟨b1, b2, b3, by omega, ?_, hexit⟩
    rw [hnew, hunkNewLines_append, hunkNewLines_add_single]
    rw [List.append_assoc, List.singleton_append,
      seg_cons new "" j _ hj0 (by omega)]
  | case5 i j lines hij =>
    intro hi hj
    rw [hunkLoop, dif_neg hij]; dsimp only
    refine ⟨hi, hj, le_refl i, le_refl j, ?_, Or.inl ⟨by omega, by omega⟩⟩
    rw [seg_self, List.append_nil]

/-- Round-trip invariant of the outer diff loop: starting from aligned
cursors (initially, just after a break, or at the end), applying the
remaining hunks to `old` from position `i` reconstructs `new` from
position `j`. -/
theorem diffLoop_apply (old new : List String) (ctx : Nat) (i j : Nat) :
    i ≤ old.length → j ≤ new.length →
    ((i = 0 ∧ j = 0) ∨ ctx < matchLen old new i j ∨ (i = old.length ∧ j = new.length)) →
    applyFrom old i (diffLoop old new ctx i j) = new.drop j := by
  induction i, j using diffLoop.induct old new ctx with
  | case2 i j h =>
    intro hi hj hal
    rw [diffLoop, dif_neg h]
    have hmo := matchLen_le_old old new i j
    have hmn := matchLen_le_new old new i j
    show old.drop i = new.drop j
    apply List.ext_getElem
    · simp; omega
    · intro k hk1 hk2
      simp only [List.length_drop] at hk1
      rw [List.getElem_drop, List.getElem_drop]
      have hsp := matchLen_spec old new i j k (by omega)
      rw [getD_eq_getElem_of_lt old "" _ (by omega),
        getD_eq_getElem_of_lt new "" _ (by omega)] at hsp
      exact hsp
  | case1 i j h ih =>
    intro hi hj hal
    rw [diffLoop, dif_pos h]
    have hex := matchLen_exhaust old new i j
    have hmo := matchLen_le_old old new i j
    have hmn := matchLen_le_new old new i j
    set d := matchLen old new i j with hd
    set r := openHunk old new ctx (i + d) (j + d) with hropen
    have hru : r = hunkLoop old new ctx (i+d) (j+d)
        ((seg old (hStart ctx (i+d)) (i+d)).map (fun l => " " ++ l)) := rfl
    have hsp := hunkLoop_spec old new ctx (i+d) (j+d)
      ((seg old (hStart ctx (i+d)) (i+d)).map (fun l => " " ++ l)) (by omega) (by omega)
    rw [← hru] at hsp
    obtain ⟨b1, b2, b3, b4, hnew, hexit⟩ := hsp
    have hstart_le : hStart ctx (i+d) ≤ i + d := by unfold hStart; omega
    have hstart_ge : i ≤ hStart ctx (i+d) := by
      rcases hal with ⟨h0i, h0j⟩ | hctx | ⟨hie, hje⟩
      · omega
      · unfold hStart; omega
      · omega
    have hnn := hunkLoop_ne_nil old new ctx (i+d) (j+d)
      ((seg old (hStart ctx (i+d)) (i+d)).map (fun l => " " ++ l)) h hex
    rw [← hru] at hnn
    have hempty : r.1.isEmpty = false := by
      cases hc : r.1.isEmpty
      · rfl
      · exact absurd (List.isEmpty_iff.mp hc) hnn
    rw [if_neg (by rw [hempty]; simp)]
    rw [List.singleton_append]
    show seg old i (hStart ctx (i+d) + 1 - 1) ++ hunkNewLines r.1 ++
      applyFrom old ((hStart ctx (i+d) + 1 - 1) + (r.2.1 - hStart ctx (i+d)))
        (diffLoop old new ctx r.2.1 r.2.2) = new.drop j
    have e1 : hStart ctx (i+d) + 1 - 1 = hStart ctx (i+d) := by omega
    have e2 : hStart ctx (i+d) + (r.2.1 - hStart ctx (i+d)) = r.2.1 := by omega
    rw [e1, e2]
    have hal' : (r.2.1 = 0 ∧ r.2.2 = 0) ∨ ctx < matchLen old new r.2.1 r.2.2 ∨
        (r.2.1 = old.length ∧ r.2.2 = new.length) := by
      rcases hexit with ⟨hx1, hx2⟩ | hx
      · exact Or.inr (Or.inr ⟨hx1, hx2⟩)
      · exact Or.inr (Or.inl hx)
    rw [ih b1 b2 hal']
    rw [hnew, hunkNewLines_ctx_map]
    have ha1 : seg old i (hStart ctx (i+d)) =
        seg new j (j + (hStart ctx (i+d) - i)) := by
      have hsa := seg_align old new i j i (hStart ctx (i+d)) (le_refl i) hstart_ge (by omega)
      have e3 : j + (i - i) = j := by omega
      rw [e3] at hsa
      exact hsa
    have ha2 : seg old (hStart ctx (i+d)) (i+d) =
        seg new (j + (hStart ctx (i+d) - i)) (j+d) := by
      have hsa := seg_align old new i j (hStart ctx (i+d)) (i+d) hstart_ge hstart_le (by omega)
      have e4 : j + (i + d - i) = j + d := by omega
      rw [e4] at hsa
      exact hsa
    rw [ha1, ha2]
    simp only [List.append_assoc]
    rw [seg_append_drop new (j+d) r.2.2 (by omega),
      seg_append_drop new (j + (hStart ctx (i+d) - i)) (j+d) (by omega),
      seg_append_drop new j (j + (hStart ctx (i+d) - i)) (by omega)]

/-- C1: for every pair of line sequences A and B (including empty files and
files differing only in trailing lines) and every context width, applying the
hunks produced by `computeDiff` for A versus B to A reconstructs B exactly. -/
theorem diff_roundtrip (A B : List String) (ctx : Nat) :
    applyHunks A (computeDiff A B ctx) = B := by
  have h := diffLoop_apply A B ctx 0 0 (by omega) (by omega) (Or.inl ⟨rfl, rfl⟩)
  simpa [applyHunks, computeDiff] using h

theorem computeDiff_second_hunk_example :
    computeDiff ["d","m1","m2","m3","m4","m5","m6","m7","e"]
        ["m1","m2","m3","m4","m5","m6","m7","f"] 3 =
    [⟨1, 4, 1, 3, ["-d", " m1", " m2", " m3"]⟩,
     ⟨6, 4, 6, 3, [" m5", " m6", " m7", "-e", "+f"]⟩] := by
  simp [computeDiff, diffLoop, openHunk, hunkLoop, matchLen, hStart, seg]

/-- C6: at the default context width 3, diffing the 9-line file
`d,m1..m7,e` against `m1..m7,f` produces a second hunk whose count of
context-or-added lines is 4 while its recorded new count is 3 (the source
computes `NewCount` as `j - start` with `start` measured on the old file):
the invariant `count of new-tagged lines == new count` fails on it. -/
theorem computeDiff_newCount_mismatch :
    (computeDiff ["d","m1","m2","m3","m4","m5","m6","m7","e"]
        ["m1","m2","m3","m4","m5","m6","m7","f"] 3).map
      (fun h => (h.oldCount, oldSideCount h.lines, h.newCount, newSideCount h.lines)) =
    [(4, 4, 3, 3), (4, 4, 3, 4)] := by
  rw [computeDiff_second_hunk_example]; decide

end Diff

namespace Replace

/-- Embedding of Go `strings.Contains(s, pat)` (`Index(s, pat) >= 0`):
true when `pat` occurs as a contiguous run starting at some position,
including the empty pattern. -/
def goContainsAux (pat : List Char) : List Char → Bool
  | [] => pat.isPrefixOf []
  | c :: t => pat.isPrefixOf (c :: t) || goContainsAux pat t

/-- Embedding of the loop of Go `strings.Count(s, p::ps)` for a non-empty
pattern: scan left to right, and after each hit continue after the whole
matched pattern (non-overlapping count, as `Count` advances by
`Index(s,substr)+len(substr)`). -/
def goCountAux (p : Char) (ps : List Char) : List Char → Nat
  | [] => 0
  | c :: t =>
    if (p :: ps).isPrefixOf (c :: t) then 1 + goCountAux p ps (t.drop ps.length)
    else goCountAux p ps t
termination_by s => s.length
decreasing_by
  · simp; omega
  · simp

/-- Embedding of Go `strings.Count`: for the empty pattern the rune count
plus one, otherwise the non-overlapping occurrence count. -/
def goCount (s pat : String) : Nat :=
  match pat.data with
  | [] => s.data.length + 1
  | p :: ps => goCountAux p ps s.data

/-- Embedding of Go `strings.Contains`. -/
def goContains (s pat : String) : Bool := goContainsAux pat.data s.data

/-- Embedding of Go `strings.Replace(s, pat, rep, 1)`: replace the leftmost
occurrence of `pat` (for the empty pattern, insert `rep` in front). -/
def goReplaceOnce (pat rep : List Char) : List Char → List Char
  | [] => if pat.isPrefixOf [] then rep else []
  | c :: t =>
    if pat.isPrefixOf (c :: t) then rep ++ (c :: t).drop pat.length
    else c :: goReplaceOnce pat rep t

/-- ApplyResult record of the diff engine's replace mode. -/
structure ApplyResult where
  success : Bool
  filePath : String
  content : String
  error : String
deriving Repr, DecidableEq

/-- Embedding of `applyReplace` from the diff engine source.  The file system
is made explicit: the file's current content is an argument and the second
component of the result is the content on disk afterwards (`os.WriteFile`
happens only in non-preview success; read errors are outside the model). -/
def applyReplace (path : String) (fileContent : String) (oldText newText : String)
    (preview : Bool) : ApplyResult × String :=
  if !(goContains fileContent oldText) then
    (⟨false, "", "", "Text not found"⟩, fileContent)
  else if 1 < goCount fileContent oldText then
    (⟨false, "", "",
      "Found " ++ toString (goCount fileContent oldText) ++ " matches, need unique match"⟩,
     fileContent)
  else if preview then
    (⟨true, path, String.mk (goReplaceOnce oldText.data newText.data fileContent.data), ""⟩,
     fileContent)
  else
    (⟨true, path, "", ""⟩,
     String.mk (goReplaceOnce oldText.data newText.data fileContent.data))

theorem goContainsAux_nil_pat (l : List Char) : goContainsAux [] l = true := by
  cases l <;> simp [goContainsAux]

theorem goContainsAux_iff_countAux (p : Char) (ps : List Char) (l : List Char) :
    goContainsAux (p :: ps) l = true ↔ 1 ≤ goCountAux p ps l := by
  induction l with
  | nil => simp [goContainsAux, goCountAux, List.isPrefixOf]
  | cons c t ih =>
    by_cases hpf : (p :: ps).isPrefixOf (c :: t) = true
    · simp [goContainsAux, goCountAux, hpf]
    · simp only [Bool.not_eq_true] at hpf
      simp [goContainsAux, goCountAux, hpf, ih]

theorem goContains_iff_goCount_pos (s pat : String) :
    goContains s pat = true ↔ 1 ≤ goCount s pat := by
  cases hp : pat.data with
  | nil => simp [goContains, goCount, hp, goContainsAux_nil_pat]
  | cons p ps => simp [goContains, goCount, hp, goContainsAux_iff_countAux]

/-- C2 (amended): the single-file replace operation, in both apply and
preview mode, succeeds exactly when the Go-style non-overlapping occurrence
count of the old text equals one, and whenever it fails the file on disk is
left unchanged. -/
theorem applyReplace_unique (path fileContent oldText newText : String) (preview : Bool) :
    ((applyReplace path fileContent oldText newText preview).1.success = true ↔
      goCount fileContent oldText = 1) ∧
    ((applyReplace path fileContent oldText newText preview).1.success = true ∨
      (applyReplace path fileContent oldText newText preview).2 = fileContent) := by
  by_cases hc : goContains fileContent oldText = true
  · have hpos := (goContains_iff_goCount_pos fileContent oldText).mp hc
    by_cases hgt : 1 < goCount fileContent oldText
    · constructor
      · simp [applyReplace, hc, hgt]; omega
      · right; simp [applyReplace, hc, hgt]
    · have h1 : goCount fileContent oldText = 1 := by omega
      cases preview <;> constructor <;>
        simp [applyReplace, hc, hgt, h1]
  · simp only [Bool.not_eq_true] at hc
    have hz : ¬(1 ≤ goCount fileContent oldText) := by
      intro h
      rw [← goContains_iff_goCount_pos] at h
      rw [hc] at h
      exact Bool.false_ne_true h
    constructor
    · simp [applyReplace, hc]; omega
    · right; simp [applyReplace, hc]

/-- Number of positions at which the pattern occurs in the content,
overlapping occurrences counted separately: the literal reading of the
spec's "the old-text appears in the file exactly once". -/
def posOccCount (s pat : String) : Nat :=
  (List.range (s.data.length + 1)).countP (fun k => pat.data.isPrefixOf (s.data.drop k))

/-- C2 (counterexample): the old text `"aa"` occurs at two (overlapping)
positions of the file `"aaa"`, yet apply-mode replace succeeds (Go's
non-overlapping `strings.Count` reports 1), so "succeeds iff the old-text
occurs exactly once" is false as stated and the replacement is performed on
an ambiguous target. -/
theorem applyReplace_overlap_counterexample :
    (applyReplace "f.txt" "aaa" "aa" "b" false).1.success = true ∧
    posOccCount "aaa" "aa" = 2 ∧
    (applyReplace "f.txt" "aaa" "aa" "b" false).2 = "ba" := by
  refine ⟨?_, by decide, ?_⟩ <;>
    simp [applyReplace, goContains, goContainsAux, goCount, goCountAux, goReplaceOnce,
      List.isPrefixOf]

end Replace

namespace Runner

/-- Task record from the parallel-runner source. -/
structure Task where
  id : String
  command : String
  dir : String
deriving Repr, DecidableEq

/-- TaskResult record from the parallel-runner source. -/
structure TaskResult where
  id : String
  command : String
  stdout : String
  stderr : String
  exitCode : Int
  durationMs : Int
  success : Bool
  error : String
deriving Repr, DecidableEq

/-- Shape of the error value returned by `cmd.Output()`: no error, an
`*exec.ExitError` carrying the exit code and captured standard-error, or any
other error value (spawn failure, context error) carrying its message. -/
inductive ExecErr where
  | ok : ExecErr
  | exitError (code : Int) (stderr : String) : ExecErr
  | otherError (msg : String) : ExecErr
deriving Repr, DecidableEq

/-- Observable outcome of running one subprocess: captured standard output,
the error shape of `cmd.Output()`, whether the context deadline had expired
(`ctx.Err() == context.DeadlineExceeded`), and the measured duration.
Subprocess execution itself is outside the embedding, so it is an input. -/
structure ExecOutcome where
  stdout : String
  err : ExecErr
  deadlineExceeded : Bool
  durationMs : Int
deriving Repr, DecidableEq

/-- Embedding of `runTask`: classify the outcome exactly as the source does —
an exit error records the real exit code and captured stderr; otherwise an
expired deadline records the `"timeout exceeded"` error with exit sentinel
-1; any other error records its message with sentinel -1; no error means
exit code 0 and success.  Stdout is recorded in every case. -/
def runTask (task : Task) (outcome : ExecOutcome) : TaskResult :=
  match outcome.err with
  | .ok =>
    { id := task.id, command := task.command, stdout := outcome.stdout, stderr := "",
      exitCode := 0, durationMs := outcome.durationMs, success := true, error := "" }
  | .exitError code st =>
    { id := task.id, command := task.command, stdout := outcome.stdout, stderr := st,
      exitCode := code, durationMs := outcome.durationMs, success := false, error := "" }
  | .otherError msg =>
    if outcome.deadlineExceeded then
      { id := task.id, command := task.command, stdout := outcome.stdout, stderr := "",
        exitCode := -1, durationMs := outcome.durationMs, success := false,
        error := "timeout exceeded" }
    else
      { id := task.id, command := task.command, stdout := outcome.stdout, stderr := "",
        exitCode := -1, durationMs := outcome.durationMs, success := false, error := msg }

/-- RunnerResult record from the parallel-runner source (total duration is
not modelled). -/
structure RunnerResult where
  results : List TaskResult
  totalTasks : Nat
  successCount : Nat
  failCount : Nat
deriving Repr, DecidableEq

/-- Embedding of `runTasks`: the workers write each task's result into the
slot `Results[idx]` of its input index and bump exactly one of the two
counters under the mutex, so the aggregate is deterministic in the inputs:
slot `k` holds `runTask tasks[k] outcomes[k]`, and the counters count
successes and failures over all slots. -/
def runTasks (tasks : List Task) (outcomes : List ExecOutcome) : RunnerResult :=
  { results := List.zipWith runTask tasks outcomes,
    totalTasks := tasks.length,
    successCount := (List.zipWith runTask tasks outcomes).countP (fun r => r.success),
    failCount := (List.zipWith runTask tasks outcomes).countP (fun r => !r.success) }

/-- Placeholder task used as a `getD` default. -/
def dummyTask : Task := ⟨"", "", ""⟩

/-- Placeholder outcome used as a `getD` default. -/
def dummyOutcome : ExecOutcome := ⟨"", .ok, false, 0⟩

/-- Placeholder task result used as a `getD` default. -/
def dummyResult : TaskResult := ⟨"", "", "", "", 0, 0, false, ""⟩

theorem runTask_id (t : Task) (o : ExecOutcome) : (runTask t o).id = t.id := by
  rcases o with ⟨so, e, dl, du⟩
  rcases e with _ | ⟨c, st⟩ | m <;> simp [runTask]
  by_cases hd : dl = true <;> simp [hd]

theorem runTask_command (t : Task) (o : ExecOutcome) : (runTask t o).command = t.command := by
  rcases o with ⟨so, e, dl, du⟩
  rcases e with _ | ⟨c, st⟩ | m <;> simp [runTask]
  by_cases hd : dl = true <;> simp [hd]

theorem countP_success_add_not (l : List TaskResult) :
    l.countP (fun r => r.success) + l.countP (fun r => !r.success) = l.length := by
  induction l with
  | nil => simp
  | cons x t ih =>
    by_cases hx : x.success = true <;>
      simp [List.countP_cons, hx] <;> omega

theorem runTasks_getD (tasks : List Task) (outcomes : List ExecOutcome)
    (h : outcomes.length = tasks.length) (k : Nat) (hk : k < tasks.length) :
    (runTasks tasks outcomes).results.getD k dummyResult =
      runTask (tasks.getD k dummyTask) (outcomes.getD k dummyOutcome) := by
  have hlen : (List.zipWith runTask tasks outcomes).length = tasks.length := by
    simp [h]
  have hk1 : k < (List.zipWith runTask tasks outcomes).length := by omega
  have hk2 : k < outcomes.length := by omega
  rw [runTasks]
  rw [List.getD_eq_getElem _ _ hk1, List.getElem_zipWith,
    List.getD_eq_getElem _ _ hk, List.getD_eq_getElem _ _ hk2]

/-- C10: the runner's result list has exactly one entry per input task, slot
`k` carries the ID and command text of input task `k` (input order survives
parallel execution), and the success and failure counts add up to the total
task count. -/
theorem runTasks_order_counts (tasks : List Task) (outcomes : List ExecOutcome)
    (h : outcomes.length = tasks.length) (k : Nat) (hk : k < tasks.length) :
    (runTasks tasks outcomes).results.length = tasks.length ∧
    ((runTasks tasks outcomes).results.getD k dummyResult).id = (tasks.getD k dummyTask).id ∧
    ((runTasks tasks outcomes).results.getD k dummyResult).command =
      (tasks.getD k dummyTask).command ∧
    (runTasks tasks outcomes).successCount + (runTasks tasks outcomes).failCount =
      (runTasks tasks outcomes).totalTasks := by
  refine ⟨by simp [runTasks, h], ?_, ?_, ?_⟩
  · rw [runTasks_getD tasks outcomes h k hk, runTask_id]
  · rw [runTasks_getD tasks outcomes h k hk, runTask_command]
  · show (List.zipWith runTask tasks outcomes).countP (fun r => r.success) +
      (List.zipWith runTask tasks outcomes).countP (fun r => !r.success) = tasks.length
    rw [countP_success_add_not]
    simp [h]

/-- C10 witness: a concrete two-task run. -/
theorem runTasks_order_counts_witness :
    (runTasks [⟨"t1", "echo a", "."⟩, ⟨"t2", "false", "."⟩]
        [⟨"a\n", .ok, false, 5⟩, ⟨"", .exitError 1 "boom", false, 7⟩]).results.length = 2 ∧
    ((runTasks [⟨"t1", "echo a", "."⟩, ⟨"t2", "false", "."⟩]
        [⟨"a\n", .ok, false, 5⟩, ⟨"", .exitError 1 "boom", false, 7⟩]).results.getD 1
          dummyResult).id =
      ([(⟨"t1", "echo a", "."⟩ : Task), ⟨"t2", "false", "."⟩].getD 1 dummyTask).id ∧
    ((runTasks [⟨"t1", "echo a", "."⟩, ⟨"t2", "false", "."⟩]
        [⟨"a\n", .ok, false, 5⟩, ⟨"", .exitError 1 "boom", false, 7⟩]).results.getD 1
          dummyResult).command =
      ([(⟨"t1", "echo a", "."⟩ : Task), ⟨"t2", "false", "."⟩].getD 1 dummyTask).command ∧
    (runTasks [⟨"t1", "echo a", "."⟩, ⟨"t2", "false", "."⟩]
        [⟨"a\n", .ok, false, 5⟩, ⟨"", .exitError 1 "boom", false, 7⟩]).successCount +
      (runTasks [⟨"t1", "echo a", "."⟩, ⟨"t2", "false", "."⟩]
        [⟨"a\n", .ok, false, 5⟩, ⟨"", .exitError 1 "boom", false, 7⟩]).failCount =
      (runTasks [⟨"t1", "echo a", "."⟩, ⟨"t2", "false", "."⟩]
        [⟨"a\n", .ok, false, 5⟩, ⟨"", .exitError 1 "boom", false, 7⟩]).totalTasks :=
  runTasks_order_counts [⟨"t1", "echo a", "."⟩, ⟨"t2", "false", "."⟩]
    [⟨"a\n", .ok, false, 5⟩, ⟨"", .exitError 1 "boom", false, 7⟩] (by decide) 1 (by decide)

/-- Branch behaviour of the embedded classification chain: when `cmd.Output`
returns a non-exit error with the deadline expired (reachable only when the
subprocess never started, since a started-then-killed process yields an exit
error — see `runTask_timeout_not_classified`), the timeout string and exit
sentinel -1 are recorded; an exit error records the real exit code and
captured standard-error; every task of the run still gets a result slot, and
the success/failure counts cover all of them. -/
theorem runTask_timeout_classified (tasks : List Task) (outcomes : List ExecOutcome)
    (h : outcomes.length = tasks.length) (k m : Nat) (hk : k < tasks.length)
    (hm : m < tasks.length) (msg : String) (code : Int) (st : String)
    (hko : (outcomes.getD k dummyOutcome).err = ExecErr.otherError msg)
    (hkd : (outcomes.getD k dummyOutcome).deadlineExceeded = true)
    (hmo : (outcomes.getD m dummyOutcome).err = ExecErr.exitError code st) :
    ((runTasks tasks outcomes).results.getD k dummyResult).error = "timeout exceeded" ∧
    ((runTasks tasks outcomes).results.getD k dummyResult).exitCode = -1 ∧
    ((runTasks tasks outcomes).results.getD k dummyResult).success = false ∧
    ((runTasks tasks outcomes).results.getD m dummyResult).exitCode = code ∧
    ((runTasks tasks outcomes).results.getD m dummyResult).stderr = st ∧
    ((runTasks tasks outcomes).results.getD m dummyResult).error = "" ∧
    (runTasks tasks outcomes).results.length = tasks.length ∧
    (runTasks tasks outcomes).successCount + (runTasks tasks outcomes).failCount =
      (runTasks tasks outcomes).totalTasks := by
  rw [runTasks_getD tasks outcomes h k hk, runTasks_getD tasks outcomes h m hm]
  refine ⟨?_, ?_, ?_, ?_, ?_, ?_, by simp [runTasks, h], ?_⟩
  · rw [runTask, hko]; dsimp only; rw [if_pos hkd]
  · rw [runTask, hko]; dsimp only; rw [if_pos hkd]
  · rw [runTask, hko]; dsimp only; rw [if_pos hkd]
  · rw [runTask, hmo]
  · rw [runTask, hmo]
  · rw [runTask, hmo]
  · show (List.zipWith runTask tasks outcomes).countP (fun r => r.success) +
      (List.zipWith runTask tasks outcomes).countP (fun r => !r.success) = tasks.length
    rw [countP_success_add_not]
    simp [h]

/-- Concrete two-task instance of the classification-chain lemma. -/
theorem runTask_timeout_classified_witness :
    ((runTasks [⟨"t1", "sleep 99", "."⟩, ⟨"t2", "false", "."⟩]
        [⟨"", .otherError "context deadline exceeded", true, 60000⟩,
         ⟨"", .exitError 2 "oops", false, 7⟩]).results.getD 0 dummyResult).error =
      "timeout exceeded" ∧
    ((runTasks [⟨"t1", "sleep 99", "."⟩, ⟨"t2", "false", "."⟩]
        [⟨"", .otherError "context deadline exceeded", true, 60000⟩,
         ⟨"", .exitError 2 "oops", false, 7⟩]).results.getD 0 dummyResult).exitCode = -1 ∧
    ((runTasks [⟨"t1", "sleep 99", "."⟩, ⟨"t2", "false", "."⟩]
        [⟨"", .otherError "context deadline exceeded", true, 60000⟩,
         ⟨"", .exitError 2 "oops", false, 7⟩]).results.getD 0 dummyResult).success = false ∧
    ((runTasks [⟨"t1", "sleep 99", "."⟩, ⟨"t2", "false", "."⟩]
        [⟨"", .otherError "context deadline exceeded", true, 60000⟩,
         ⟨"", .exitError 2 "oops", false, 7⟩]).results.getD 1 dummyResult).exitCode = 2 ∧
    ((runTasks [⟨"t1", "sleep 99", "."⟩, ⟨"t2", "false", "."⟩]
        [⟨"", .otherError "context deadline exceeded", true, 60000⟩,
         ⟨"", .exitError 2 "oops", false, 7⟩]).results.getD 1 dummyResult).stderr = "oops" ∧
    ((runTasks [⟨"t1", "sleep 99", "."⟩, ⟨"t2", "false", "."⟩]
        [⟨"", .otherError "context deadline exceeded", true, 60000⟩,
         ⟨"", .exitError 2 "oops", false, 7⟩]).results.getD 1 dummyResult).error = "" ∧
    (runTasks [⟨"t1", "sleep 99", "."⟩, ⟨"t2", "false", "."⟩]
        [⟨"", .otherError "context deadline exceeded", true, 60000⟩,
         ⟨"", .exitError 2 "oops", false, 7⟩]).results.length = 2 ∧
    (runTasks [⟨"t1", "sleep 99", "."⟩, ⟨"t2", "false", "."⟩]
        [⟨"", .otherError "context deadline exceeded", true, 60000⟩,
         ⟨"", .exitError 2 "oops", false, 7⟩]).successCount +
      (runTasks [⟨"t1", "sleep 99", "."⟩, ⟨"t2", "false", "."⟩]
        [⟨"", .otherError "context deadline exceeded", true, 60000⟩,
         ⟨"", .exitError 2 "oops", false, 7⟩]).failCount =
      (runTasks [⟨"t1", "sleep 99", "."⟩, ⟨"t2", "false", "."⟩]
        [⟨"", .otherError "context deadline exceeded", true, 60000⟩,
         ⟨"", .exitError 2 "oops", false, 7⟩]).totalTasks :=
  runTask_timeout_classified [⟨"t1", "sleep 99", "."⟩, ⟨"t2", "false", "."⟩]
    [⟨"", .otherError "context deadline exceeded", true, 60000⟩,
     ⟨"", .exitError 2 "oops", false, 7⟩] (by decide) 0 1 (by decide) (by decide)
    "context deadline exceeded" 2 "oops" (by decide) (by decide) (by decide)

/-- C3: evaluation of `runTask` at an actual deadline-exceeded subprocess.
A task that starts and is then killed at the context deadline makes
`cmd.Output` return an `*exec.ExitError` (the process was signal-killed, so
`ExitCode()` is -1) while `ctx.Err()` is `DeadlineExceeded`; the source
type-asserts `*exec.ExitError` before consulting `ctx.Err()`, so the first
branch runs and records exit code -1 with an empty error field.  The
`"timeout exceeded"` classification is never recorded for such a task: its
record carries the same empty error field as a normal non-zero exit (shown
alongside), refuting the claimed timeout-distinguishing classification. -/
theorem runTask_timeout_not_classified :
    (runTask ⟨"t1", "sleep 60", "."⟩ ⟨"", .exitError (-1) "", true, 1000⟩).error = "" ∧
    (runTask ⟨"t1", "sleep 60", "."⟩ ⟨"", .exitError (-1) "", true, 1000⟩).exitCode = -1 ∧
    (runTask ⟨"t1", "sleep 60", "."⟩ ⟨"", .exitError (-1) "", true, 1000⟩).success = false ∧
    (runTask ⟨"t2", "false", "."⟩ ⟨"", .exitError 1 "boom", false, 5⟩).error = "" ∧
    ¬((runTask ⟨"t1", "sleep 60", "."⟩ ⟨"", .exitError (-1) "", true, 1000⟩).error =
        "timeout exceeded") := by
  refine ⟨rfl, rfl, rfl, rfl, by decide⟩

end Runner

namespace Search

/-- Match record from the fast-search source. -/
structure SMatch where
  file : String
  line : Nat
  content : String
deriving Repr, DecidableEq

/-- Result record from the fast-search source. -/
structure SResult where
  found : List SMatch
  count : Nat
  error : String
deriving Repr, DecidableEq

/-- Embedding of `searchFile`: scan the file's lines in order and emit one
match (file, 1-based line number, raw line) per line satisfying the pattern.
The compiled pattern test (`re.MatchString` or `strings.Contains`, with
optional case folding) is abstracted as the line predicate `pred`. -/
def searchFile (pred : String → Bool) (path : String) (lines : List String) : List SMatch :=
  (lines.enum.filter (fun p => pred p.2)).map (fun p => ⟨path, p.1 + 1, p.2⟩)

/-- Inner gather loop of `search`: append one file's matches to the
accumulated result, stopping as soon as the accumulated length reaches the
cap (`if len(result.Matches) >= maxResults break`). -/
def addMatches (maxR : Int) (acc : List SMatch) : List SMatch → List SMatch
  | [] => acc
  | m :: ms =>
    if maxR ≤ (acc.length : Int) then acc else addMatches maxR (acc ++ [m]) ms

/-- Outer gather loop of `search`: drain the per-file match lists in channel
arrival order, breaking out once the cap is reached. -/
def gatherAll (maxR : Int) (acc : List SMatch) : List (List SMatch) → List SMatch
  | [] => acc
  | ms :: rest =>
    if maxR ≤ ((addMatches maxR acc ms).length : Int) then addMatches maxR acc ms
    else gatherAll maxR (addMatches maxR acc ms) rest

/-- Result assembly of `search`: gather the delivered per-file match lists
under the cap and report the gathered length as the count.  `delivered` is
the channel arrival order, a permutation of the per-file match lists. -/
def searchResult (maxR : Int) (delivered : List (List SMatch)) : SResult :=
  { found := gatherAll maxR [] delivered,
    count := (gatherAll maxR [] delivered).length, error := "" }

theorem addMatches_eq (maxR : Int) (acc : List SMatch) (ms : List SMatch) :
    addMatches maxR acc ms = acc ++ ms.take (maxR.toNat - acc.length) := by
  induction ms generalizing acc with
  | nil => simp [addMatches]
  | cons m ms ih =>
    rw [addMatches]
    by_cases hc : maxR ≤ (acc.length : Int)
    · rw [if_pos hc]
      have hz : maxR.toNat - acc.length = 0 := by omega
      rw [hz]
      simp
    · rw [if_neg hc, ih]
      have hs : maxR.toNat - acc.length = (maxR.toNat - (acc ++ [m]).length) + 1 := by
        simp only [List.length_append, List.length_cons, List.length_nil]
        omega
      rw [hs, List.take_succ_cons]
      simp

theorem gatherAll_eq (maxR : Int) (acc : List SMatch) (ls : List (List SMatch)) :
    gatherAll maxR acc ls = acc ++ ls.flatten.take (maxR.toNat - acc.length) := by
  induction ls generalizing acc with
  | nil => simp [gatherAll]
  | cons ms rest ih =>
    rw [gatherAll]
    have hlen : (addMatches maxR acc ms).length =
        acc.length + min (maxR.toNat - acc.length) ms.length := by
      rw [addMatches_eq]
      simp
    by_cases hc : maxR ≤ ((addMatches maxR acc ms).length : Int)
    · rw [if_pos hc, addMatches_eq]
      rw [hlen] at hc
      have hk : maxR.toNat - acc.length ≤ ms.length := by omega
      rw [List.flatten_cons, List.take_append_eq_append_take]
      have hz : maxR.toNat - acc.length - ms.length = 0 := by omega
      rw [hz]
      simp
    · rw [if_neg hc, ih, addMatches_eq]
      rw [hlen] at hc
      have hmin : min (maxR.toNat - acc.length) ms.length = ms.length := by omega
      have he : maxR.toNat - (acc ++ ms.take (maxR.toNat - acc.length)).length =
          maxR.toNat - acc.length - ms.length := by
        simp only [List.length_append, List.length_take]
        omega
      rw [he, List.flatten_cons, List.take_append_eq_append_take]
      have ht : ms.take (maxR.toNat - acc.length) = ms := by
        apply List.take_of_length_le
        omega
      rw [ht, List.append_assoc]

/-- C4: for a cap `max`, the reported count equals the number of returned
matches and never exceeds `max`; matching stops globally at the cap while the
partial results gathered so far are kept (the result is a prefix of the
flattened arrival order); and the same search run uncapped (any cap at least
the total number of matches, i.e. "relaxed to infinity") returns a superset
of the capped result, for any two channel arrival orders. -/
theorem search_cap (pred : String → Bool) (files : List (String × List String))
    (delivered1 delivered2 : List (List SMatch)) (maxR : Nat) (bigR : Int)
    (h1 : delivered1.Perm (files.map (fun f => searchFile pred f.1 f.2)))
    (h2 : delivered2.Perm (files.map (fun f => searchFile pred f.1 f.2)))
    (hbig : (((files.map (fun f => searchFile pred f.1 f.2)).flatten.length : Int)) ≤ bigR) :
    (searchResult (maxR : Int) delivered1).count =
      (searchResult (maxR : Int) delivered1).found.length ∧
    (searchResult (maxR : Int) delivered1).found.length ≤ maxR ∧
    (searchResult (maxR : Int) delivered1).found =
      delivered1.flatten.take maxR ∧
    ((searchResult (maxR : Int) delivered1).found.all
      (fun m => (searchResult bigR delivered2).found.contains m)) = true := by
  have hg1 : (searchResult (maxR : Int) delivered1).found = delivered1.flatten.take maxR := by
    show gatherAll (maxR : Int) [] delivered1 = delivered1.flatten.take maxR
    rw [gatherAll_eq]
    simp
  have hflat1 := h1.flatten
  have hflat2 := h2.flatten
  have hg2 : (searchResult bigR delivered2).found = delivered2.flatten := by
    show gatherAll bigR [] delivered2 = delivered2.flatten
    rw [gatherAll_eq]
    have hlen2 : delivered2.flatten.length =
        (files.map (fun f => searchFile pred f.1 f.2)).flatten.length := hflat2.length_eq
    simp only [List.length_nil, Nat.sub_zero, List.nil_append]
    exact List.take_of_length_le (by omega)
  refine ⟨rfl, ?_, hg1, ?_⟩
  · rw [hg1]
    simpa using List.length_take_le maxR delivered1.flatten
  · rw [List.all_eq_true]
    intro m hm
    have hmem : m ∈ (searchResult bigR delivered2).found := by
      rw [hg1] at hm
      rw [hg2]
      have hm1 : m ∈ delivered1.flatten := List.mem_of_mem_take hm
      exact hflat2.symm.subset (hflat1.subset hm1)
    simpa [List.contains, List.elem_iff] using hmem

/-- C4 witness: two files with three matching lines in total, cap 2,
uncapped cap 10, identity arrival order. -/
theorem search_cap_witness :
    (searchResult ((2 : Nat) : Int)
        ([("a.txt", ["hit", "miss", "hit"]), ("b.txt", ["hit"])].map
          (fun f => searchFile (fun l => l == "hit") f.1 f.2))).count =
      (searchResult ((2 : Nat) : Int)
        ([("a.txt", ["hit", "miss", "hit"]), ("b.txt", ["hit"])].map
          (fun f => searchFile (fun l => l == "hit") f.1 f.2))).found.length ∧
    (searchResult ((2 : Nat) : Int)
        ([("a.txt", ["hit", "miss", "hit"]), ("b.txt", ["hit"])].map
          (fun f => searchFile (fun l => l == "hit") f.1 f.2))).found.length ≤ 2 ∧
    (searchResult ((2 : Nat) : Int)
        ([("a.txt", ["hit", "miss", "hit"]), ("b.txt", ["hit"])].map
          (fun f => searchFile (fun l => l == "hit") f.1 f.2))).found =
      ([("a.txt", ["hit", "miss", "hit"]), ("b.txt", ["hit"])].map
          (fun f => searchFile (fun l => l == "hit") f.1 f.2)).flatten.take 2 ∧
    ((searchResult ((2 : Nat) : Int)
        ([("a.txt", ["hit", "miss", "hit"]), ("b.txt", ["hit"])].map
          (fun f => searchFile (fun l => l == "hit") f.1 f.2))).found.all
      (fun m => (searchResult (10 : Int)
        ([("a.txt", ["hit", "miss", "hit"]), ("b.txt", ["hit"])].map
          (fun f => searchFile (fun l => l == "hit") f.1 f.2))).found.contains m)) = true :=
  search_cap (fun l => l == "hit") [("a.txt", ["hit", "miss", "hit"]), ("b.txt", ["hit"])]
    ([("a.txt", ["hit", "miss", "hit"]), ("b.txt", ["hit"])].map
      (fun f => searchFile (fun l => l == "hit") f.1 f.2))
    ([("a.txt", ["hit", "miss", "hit"]), ("b.txt", ["hit"])].map
      (fun f => searchFile (fun l => l == "hit") f.1 f.2))
    2 10 (List.Perm.refl _) (List.Perm.refl _) (by decide)

end Search

namespace Watcher

/-- FileState record from the watcher source: modified-time and size.
`time.Time` is modelled as an integer timestamp. -/
structure FileState where
  modTime : Int
  size : Int
deriving Repr, DecidableEq

/-- FileEvent record from the watcher source.  A deleted event carries the
comparison time and the zero size (the Go struct's unset field). -/
structure FileEvent where
  type : String
  path : String
  timestamp : Int
  size : Int
deriving Repr, DecidableEq

/-- Embedding of `compareStates`: the Go maps are modelled as association
lists with unique keys (map iteration order is arbitrary, so all claims
below are membership statements).  A path only in `old` is deleted, a path
in both with a different modified-time is modified (carrying the new state's
time and size), a path only in `new` is created. -/
def compareStates (old new : List (String × FileState)) (now : Int) : List FileEvent :=
  (old.filterMap (fun po =>
    match new.lookup po.1 with
    | none => some ⟨"deleted", po.1, now, 0⟩
    | some ns =>
      if ns.modTime ≠ po.2.modTime then some ⟨"modified", po.1, ns.modTime, ns.size⟩
      else none)) ++
  (new.filterMap (fun pn =>
    match old.lookup pn.1 with
    | none => some ⟨"created", pn.1, pn.2.modTime, pn.2.size⟩
    | some _ => none))

/-- An event of the given kind was reported for the given path. -/
def hasEvent (events : List FileEvent) (ty p : String) : Bool :=
  events.any (fun e => e.type == ty && e.path == p)

theorem lookup_mem (l : List (String × FileState)) (k : String) (v : FileState)
    (h : l.lookup k = some v) : (k, v) ∈ l := by
  induction l with
  | nil => simp at h
  | cons a t ih =>
    rcases a with ⟨a1, a2⟩
    by_cases hk : k = a1
    · subst hk
      simp [List.lookup] at h
      simp [h]
    · have hbeq : (k == a1) = false := by simpa using hk
      simp only [List.lookup, hbeq] at h
      exact List.mem_cons_of_mem _ (ih h)

theorem mem_lookup (l : List (String × FileState)) (k : String) (v : FileState)
    (hnd : (l.map Prod.fst).Nodup) (h : (k, v) ∈ l) : l.lookup k = some v := by
  induction l with
  | nil => simp at h
  | cons a t ih =>
    rcases a with ⟨a1, a2⟩
    simp only [List.map_cons, List.nodup_cons] at hnd
    rcases List.mem_cons.mp h with he | ht
    · rw [show k = a1 from congrArg Prod.fst he, show v = a2 from congrArg Prod.snd he]
      simp [List.lookup]
    · have hk : k ≠ a1 := by
        intro hke
        exact hnd.1 (by simpa [← hke] using List.mem_map_of_mem Prod.fst ht)
      have hbeq : (k == a1) = false := by simpa using hk
      simp only [List.lookup, hbeq]
      exact ih hnd.2 ht

theorem lookup_isSome_of_mem (l : List (String × FileState)) (k : String) (v : FileState)
    (h : (k, v) ∈ l) : (l.lookup k).isSome = true := by
  induction l with
  | nil => simp at h
  | cons a t ih =>
    rcases a with ⟨a1, a2⟩
    by_cases hk : k = a1
    · subst hk
      simp [List.lookup]
    · have hbeq : (k == a1) = false := by simpa using hk
      simp only [List.lookup, hbeq]
      rcases List.mem_cons.mp h with he | ht
      · exact absurd (congrArg Prod.fst he) hk
      · exact ih ht

/-- Self-comparison produces no events when the snapshot's keys are unique. -/
theorem compareStates_self (s : List (String × FileState)) (now : Int)
    (hnd : (s.map Prod.fst).Nodup) : compareStates s s now = [] := by
  rw [compareStates]
  have h1 : s.filterMap (fun po =>
      match s.lookup po.1 with
      | none => some (⟨"deleted", po.1, now, 0⟩ : FileEvent)
      | some ns =>
        if ns.modTime ≠ po.2.modTime then some ⟨"modified", po.1, ns.modTime, ns.size⟩
        else none) = [] := by
    rw [List.filterMap_eq_nil]
    intro a ha
    rw [mem_lookup s a.1 a.2 hnd ha]
    simp
  have h2 : s.filterMap (fun pn =>
      match s.lookup pn.1 with
      | none => some (⟨"created", pn.1, pn.2.modTime, pn.2.size⟩ : FileEvent)
      | some _ => none) = [] := by
    rw [List.filterMap_eq_nil]
    intro a ha
    rw [mem_lookup s a.1 a.2 hnd ha]
  rw [h1, h2]
  rfl

theorem hasEvent_deleted_iff (s1 s2 : List (String × FileState)) (now : Int) (p : String) :
    hasEvent (compareStates s1 s2 now) "deleted" p = true ↔
      (s1.lookup p).isSome = true ∧ s2.lookup p = none := by
  rw [hasEvent, List.any_eq_true]
  constructor
  · rintro ⟨e, he, hprop⟩
    simp only [Bool.and_eq_true, beq_iff_eq] at hprop
    rcases List.mem_append.mp he with hin | hin
    · obtain ⟨⟨k, v⟩, hkv, hf⟩ := List.mem_filterMap.mp hin
      cases hl : s2.lookup k with
      | none =>
        simp only [hl] at hf
        obtain rfl := Option.some_injective _ hf
        simp only at hprop
        rw [← hprop.2]
        exact ⟨lookup_isSome_of_mem s1 k v hkv, hl⟩
      | some ns =>
        simp only [hl] at hf
        by_cases hne : ns.modTime ≠ v.modTime
        · rw [if_pos hne] at hf
          obtain rfl := Option.some_injective _ hf
          simp at hprop
        · rw [if_neg hne] at hf
          simp at hf
    · obtain ⟨⟨k, v⟩, hkv, hf⟩ := List.mem_filterMap.mp hin
      cases hl : s1.lookup k with
      | none =>
        simp only [hl] at hf
        obtain rfl := Option.some_injective _ hf
        simp at hprop
      | some os =>
        simp only [hl] at hf
        simp at hf
  · rintro ⟨hs1, hs2⟩
    obtain ⟨v, hv⟩ := Option.isSome_iff_exists.mp hs1
    refine ⟨⟨"deleted", p, now, 0⟩, ?_, by simp⟩
    apply List.mem_append.mpr
    left
    apply List.mem_filterMap.mpr
    refine ⟨(p, v), lookup_mem s1 p v hv, ?_⟩
    rw [hs2]

theorem hasEvent_created_iff (s1 s2 : List (String × FileState)) (now : Int) (p : String) :
    hasEvent (compareStates s1 s2 now) "created" p = true ↔
      (s2.lookup p).isSome = true ∧ s1.lookup p = none := by
  rw [hasEvent, List.any_eq_true]
  constructor
  · rintro ⟨e, he, hprop⟩
    simp only [Bool.and_eq_true, beq_iff_eq] at hprop
    rcases List.mem_append.mp he with hin | hin
    · obtain ⟨⟨k, v⟩, hkv, hf⟩ := List.mem_filterMap.mp hin
      cases hl : s2.lookup k with
      | none =>
        simp only [hl] at hf
        obtain rfl := Option.some_injective _ hf
        simp at hprop
      | some ns =>
        simp only [hl] at hf
        by_cases hne : ns.modTime ≠ v.modTime
        · rw [if_pos hne] at hf
          obtain rfl := Option.some_injective _ hf
          simp at hprop
        · rw [if_neg hne] at hf
          simp at hf
    · obtain ⟨⟨k, v⟩, hkv, hf⟩ := List.mem_filterMap.mp hin
      cases hl : s1.lookup k with
      | none =>
        simp only [hl] at hf
        obtain rfl := Option.some_injective _ hf
        simp only at hprop
        rw [← hprop.2]
        exact ⟨lookup_isSome_of_mem s2 k v hkv, hl⟩
      | some os =>
        simp only [hl] at hf
        simp at hf
  · rintro ⟨hs2, hs1⟩
    obtain ⟨v, hv⟩ := Option.isSome_iff_exists.mp hs2
    refine ⟨⟨"created", p, v.modTime, v.size⟩, ?_, by simp⟩
    apply List.mem_append.mpr
    right
    apply List.mem_filterMap.mpr
    refine ⟨(p, v), lookup_mem s2 p v hv, ?_⟩
    rw [hs1]

theorem hasEvent_modified_iff (s1 s2 : List (String × FileState)) (now : Int) (p : String)
    (hnd1 : (s1.map Prod.fst).Nodup) :
    hasEvent (compareStates s1 s2 now) "modified" p = true ↔
      ∃ os ns, s1.lookup p = some os ∧ s2.lookup p = some ns ∧ ns.modTime ≠ os.modTime := by
  rw [hasEvent, List.any_eq_true]
  constructor
  · rintro ⟨e, he, hprop⟩
    simp only [Bool.and_eq_true, beq_iff_eq] at hprop
    rcases List.mem_append.mp he with hin | hin
    · obtain ⟨⟨k, v⟩, hkv, hf⟩ := List.mem_filterMap.mp hin
      cases hl : s2.lookup k with
      | none =>
        simp only [hl] at hf
        obtain rfl := Option.some_injective _ hf
        simp at hprop
      | some ns =>
        simp only [hl] at hf
        by_cases hne : ns.modTime ≠ v.modTime
        · rw [if_pos hne] at hf
          obtain rfl := Option.some_injective _ hf
          simp only at hprop
          rw [← hprop.2]
          exact ⟨v, ns, mem_lookup s1 k v hnd1 hkv, hl, hne⟩
        · rw [if_neg hne] at hf
          simp at hf
    · obtain ⟨⟨k, v⟩, hkv, hf⟩ := List.mem_filterMap.mp hin
      cases hl : s1.lookup k with
      | none =>
        simp only [hl] at hf
        obtain rfl := Option.some_injective _ hf
        simp at hprop
      | some os =>
        simp only [hl] at hf
        simp at hf
  · rintro ⟨os, ns, h1, h2, hne⟩
    refine ⟨⟨"modified", p, ns.modTime, ns.size⟩, ?_, by simp⟩
    apply List.mem_append.mpr
    left
    apply List.mem_filterMap.mpr
    refine ⟨(p, os), lookup_mem s1 p os h1, ?_⟩
    rw [h2]
    dsimp only
    rw [if_pos hne]

theorem bool_eq_of_iff {a b : Bool} (h : a = true ↔ b = true) : a = b := by
  cases a <;> cases b <;> simp_all

/-- C8: comparing a snapshot to itself yields zero events; comparing S1 to
S2 and then S2 to S1 reports the same paths with created and deleted kinds
swapped and modified events preserved; and a path present in both snapshots
with an unchanged modified-time is never reported, even if its size
differs. -/
theorem compareStates_symmetry (s1 s2 : List (String × FileState)) (now1 now2 : Int)
    (p q : String) (os ns : FileState)
    (hnd1 : (s1.map Prod.fst).Nodup) (hnd2 : (s2.map Prod.fst).Nodup)
    (hq1 : s1.lookup q = some os) (hq2 : s2.lookup q = some ns)
    (hqm : ns.modTime = os.modTime) :
    compareStates s1 s1 now1 = [] ∧
    hasEvent (compareStates s1 s2 now1) "deleted" p =
      hasEvent (compareStates s2 s1 now2) "created" p ∧
    hasEvent (compareStates s1 s2 now1) "created" p =
      hasEvent (compareStates s2 s1 now2) "deleted" p ∧
    hasEvent (compareStates s1 s2 now1) "modified" p =
      hasEvent (compareStates s2 s1 now2) "modified" p ∧
    (compareStates s1 s2 now1).all (fun e => !(e.path == q)) = true := by
  refine ⟨compareStates_self s1 now1 hnd1, ?_, ?_, ?_, ?_⟩
  · apply bool_eq_of_iff
    rw [hasEvent_deleted_iff, hasEvent_created_iff]
  · apply bool_eq_of_iff
    rw [hasEvent_created_iff, hasEvent_deleted_iff]
  · apply bool_eq_of_iff
    rw [hasEvent_modified_iff s1 s2 now1 p hnd1, hasEvent_modified_iff s2 s1 now2 p hnd2]
    constructor
    · rintro ⟨a, b, h1, h2, hne⟩
      exact ⟨b, a, h2, h1, Ne.symm hne⟩
    · rintro ⟨a, b, h1, h2, hne⟩
      exact ⟨b, a, h2, h1, Ne.symm hne⟩
  · rw [List.all_eq_true]
    intro e he
    rcases List.mem_append.mp he with hin | hin
    · obtain ⟨⟨k, v⟩, hkv, hf⟩ := List.mem_filterMap.mp hin
      by_cases hkq : k = q
      · subst hkq
        have hv : v = os := by
          have hl := mem_lookup s1 k v hnd1 hkv
          rw [hq1] at hl
          exact (Option.some_injective _ hl).symm
        rw [hq2] at hf
        dsimp only at hf
        rw [hv] at hf
        simp [hqm] at hf
      · have hpath : e.path = k := by
          cases hl : s2.lookup k with
          | none =>
            rw [hl] at hf
            dsimp only at hf
            obtain rfl := Option.some_injective _ hf
            rfl
          | some ms =>
            rw [hl] at hf
            dsimp only at hf
            by_cases hne : ms.modTime ≠ v.modTime
            · rw [if_pos hne] at hf
              obtain rfl := Option.some_injective _ hf
              rfl
            · rw [if_neg hne] at hf
              simp at hf
        rw [hpath]
        simpa using hkq
    · obtain ⟨⟨k, v⟩, hkv, hf⟩ := List.mem_filterMap.mp hin
      by_cases hkq : k = q
      · subst hkq
        rw [hq1] at hf
        simp at hf
      · have hpath : e.path = k := by
          cases hl : s1.lookup k with
          | none =>
            rw [hl] at hf
            dsimp only at hf
            obtain rfl := Option.some_injective _ hf
            rfl
          | some ms =>
            rw [hl] at hf
            simp at hf
        rw [hpath]
        simpa using hkq

/-- Concrete first snapshot for the C8 witness: paths a, b, q. -/
def wSnap1 : List (String × FileState) := [("a", ⟨1, 10⟩), ("b", ⟨2, 20⟩), ("q", ⟨5, 50⟩)]

/-- Concrete second snapshot for the C8 witness: paths b (touched), c (new),
q (same modified-time, different size). -/
def wSnap2 : List (String × FileState) := [("b", ⟨3, 20⟩), ("c", ⟨4, 40⟩), ("q", ⟨5, 99⟩)]

/-- C8 witness: the symmetry and suppression facts evaluated on two concrete
snapshots, at the path "a" (deleted one way, created the other) and the path
"q" (present in both with equal modified-time but different size). -/
theorem compareStates_symmetry_witness :
    compareStates wSnap1 wSnap1 100 = [] ∧
    hasEvent (compareStates wSnap1 wSnap2 100) "deleted" "a" =
      hasEvent (compareStates wSnap2 wSnap1 200) "created" "a" ∧
    hasEvent (compareStates wSnap1 wSnap2 100) "created" "a" =
      hasEvent (compareStates wSnap2 wSnap1 200) "deleted" "a" ∧
    hasEvent (compareStates wSnap1 wSnap2 100) "modified" "a" =
      hasEvent (compareStates wSnap2 wSnap1 200) "modified" "a" ∧
    (compareStates wSnap1 wSnap2 100).all (fun e => !(e.path == "q")) = true :=
  compareStates_symmetry wSnap1 wSnap2 100 200 "a" "q" ⟨5, 50⟩ ⟨5, 99⟩
    (by decide) (by decide) (by decide) (by decide) (by decide)

end Watcher

namespace Resolver

/-- Location record from the symbol-resolver source. -/
structure RLoc where
  file : String
  line : Nat
  column : Int
  text : String
deriving Repr, DecidableEq

/-- One per-line hit of the resolver's `searchFile`: its location and
whether a declaration pattern claimed it as a definition. -/
structure RMatch where
  loc : RLoc
  isDef : Bool
deriving Repr, DecidableEq

/-- Embedding of the resolver's `searchFile`: walk the lines with the
1-based line counter and emit at most one match per line — a definition when
one of the language's declaration patterns captures the target name,
otherwise a reference when the whole-word pattern matches.  The regex tests
are abstracted as the line predicates `isDefLine`/`refMatch`, and the
column/text computations (`strings.Index(line,name)+1`, `strings.TrimSpace`)
as `colOf`/`textOf`. -/
def searchFileAux (isDefLine refMatch : String → Bool) (colOf : String → Int)
    (textOf : String → String) (path : String) : Nat → List String → List RMatch
  | _, [] => []
  | n, l :: ls =>
    (if isDefLine l then [⟨⟨path, n + 1, colOf l, textOf l⟩, true⟩]
     else if refMatch l then [⟨⟨path, n + 1, colOf l, textOf l⟩, false⟩]
     else []) ++ searchFileAux isDefLine refMatch colOf textOf path (n+1) ls

/-- The resolver's per-file scan, starting at line number 1. -/
def searchFileR (isDefLine refMatch : String → Bool) (colOf : String → Int)
    (textOf : String → String) (path : String) (lines : List String) : List RMatch :=
  searchFileAux isDefLine refMatch colOf textOf path 0 lines

/-- Gather step of `resolve`: the first definition-flagged match to arrive
becomes the symbol's definition, every other match becomes a reference. -/
def gatherStep (acc : Option RLoc × List RLoc) (m : RMatch) : Option RLoc × List RLoc :=
  if m.isDef = true ∧ acc.1 = none then (some m.loc, acc.2)
  else (acc.1, acc.2 ++ [m.loc])

/-- Gather loop of `resolve` over the matches in channel arrival order. -/
def resolveGather (ms : List RMatch) : Option RLoc × List RLoc :=
  ms.foldl gatherStep (none, [])

theorem gather_invariant (ms : List RMatch) (d : Option RLoc) (refs : List RLoc)
    (hnd : (ms.map (fun m => m.loc)).Nodup)
    (hd : ∀ m ∈ ms, d ≠ some m.loc)
    (hrefs : ∀ m ∈ ms, m.loc ∉ refs)
    (hdr : ∀ L, d = some L → L ∉ refs) :
    ∀ L, (ms.foldl gatherStep (d, refs)).1 = some L →
      L ∉ (ms.foldl gatherStep (d, refs)).2 := by
  induction ms generalizing d refs with
  | nil => simpa using hdr
  | cons m t ih =>
    simp only [List.map_cons, List.nodup_cons] at hnd
    rw [List.foldl_cons]
    by_cases hc : m.isDef = true ∧ d = none
    · rw [gatherStep, if_pos hc]
      apply ih _ _ hnd.2
      · intro m' hm' he
        exact hnd.1 ((Option.some_injective _ he) ▸ List.mem_map_of_mem (fun x => x.loc) hm')
      · intro m' hm'
        exact hrefs m' (List.mem_cons_of_mem m hm')
      · intro L hL
        rw [← Option.some_injective _ hL]
        exact hrefs m (List.mem_cons_self m t)
    · rw [gatherStep, if_neg hc]
      apply ih _ _ hnd.2
      · intro m' hm'
        exact hd m' (List.mem_cons_of_mem m hm')
      · intro m' hm' hin
        rcases List.mem_append.mp hin with h1 | h1
        · exact hrefs m' (List.mem_cons_of_mem m hm') h1
        · exact hnd.1 ((List.mem_singleton.mp h1) ▸ List.mem_map_of_mem (fun x => x.loc) hm')
      · intro L hL hin
        rcases List.mem_append.mp hin with h1 | h1
        · exact hdr L hL h1
        · exact hd m (List.mem_cons_self m t) (by rw [show d = some L from hL, List.mem_singleton.mp h1])

theorem searchFileAux_facts (isDefLine refMatch : String → Bool) (colOf : String → Int)
    (textOf : String → String) (path : String) (lines : List String) :
    ∀ n, (∀ m ∈ searchFileAux isDefLine refMatch colOf textOf path n lines,
        m.loc.file = path ∧ n < m.loc.line) ∧
      List.Pairwise (· < ·)
        ((searchFileAux isDefLine refMatch colOf textOf path n lines).map
          (fun m => m.loc.line)) := by
  induction lines with
  | nil => intro n; simp [searchFileAux]
  | cons l ls ih =>
    intro n
    have hemit : ∀ m ∈ (if isDefLine l then
          [(⟨⟨path, n + 1, colOf l, textOf l⟩, true⟩ : RMatch)]
        else if refMatch l then [⟨⟨path, n + 1, colOf l, textOf l⟩, false⟩]
        else []), m.loc.file = path ∧ m.loc.line = n + 1 := by
      intro m hm
      by_cases h1 : isDefLine l = true
      · rw [if_pos h1] at hm
        rw [List.mem_singleton.mp hm]
        exact ⟨rfl, rfl⟩
      · rw [if_neg h1] at hm
        by_cases h2 : refMatch l = true
        · rw [if_pos h2] at hm
          rw [List.mem_singleton.mp hm]
          exact ⟨rfl, rfl⟩
        · rw [if_neg h2] at hm
          simp at hm
    constructor
    · intro m hm
      rw [searchFileAux] at hm
      rcases List.mem_append.mp hm with h | h
      · have := hemit m h
        exact ⟨this.1, by omega⟩
      · have := (ih (n+1)).1 m h
        exact ⟨this.1, by omega⟩
    · rw [searchFileAux, List.map_append]
      apply List.pairwise_append.mpr
      refine ⟨?_, (ih (n+1)).2, ?_⟩
      · by_cases h1 : isDefLine l = true
        · simp [h1]
        · by_cases h2 : refMatch l = true <;> simp [h1, h2]
      · intro x hx y hy
        obtain ⟨mx, hmx, rfl⟩ := List.mem_map.mp hx
        obtain ⟨my, hmy, rfl⟩ := List.mem_map.mp hy
        have hx1 := (hemit mx hmx).2
        have hy1 := ((ih (n+1)).1 my hmy).2
        omega

theorem searchFileR_file (isDefLine refMatch : String → Bool) (colOf : String → Int)
    (textOf : String → String) (path : String) (lines : List String) :
    ∀ m ∈ searchFileR isDefLine refMatch colOf textOf path lines, m.loc.file = path :=
  fun m hm =>
    ((searchFileAux_facts isDefLine refMatch colOf textOf path lines 0).1 m hm).1

theorem searchFileR_locs_nodup (isDefLine refMatch : String → Bool) (colOf : String → Int)
    (textOf : String → String) (path : String) (lines : List String) :
    ((searchFileR isDefLine refMatch colOf textOf path lines).map
      (fun m => m.loc)).Nodup := by
  apply List.Nodup.of_map (fun l => l.line)
  rw [List.map_map]
  have hp := (searchFileAux_facts isDefLine refMatch colOf textOf path lines 0).2
  have : ((fun l => l.line) ∘ fun m => m.loc) = (fun (m : RMatch) => m.loc.line) := rfl
  rw [this]
  exact hp.imp (fun h => Nat.ne_of_lt h)

theorem flatten_locs_nodup (isDefLine refMatch : String → Bool) (colOf : String → Int)
    (textOf : String → String) (files : List (String × List String))
    (hpaths : (files.map Prod.fst).Nodup) :
    (((files.map (fun f => searchFileR isDefLine refMatch colOf textOf f.1 f.2)).flatten).map
      (fun m => m.loc)).Nodup := by
  rw [List.map_flatten, List.map_map]
  rw [List.nodup_flatten]
  constructor
  · intro s hs
    obtain ⟨f, hf, rfl⟩ := List.mem_map.mp hs
    exact searchFileR_locs_nodup isDefLine refMatch colOf textOf f.1 f.2
  · rw [List.pairwise_map]
    have hp : files.Pairwise (fun f1 f2 => f1.1 ≠ f2.1) := by
      rw [← List.pairwise_map (R := (· ≠ ·))]
      exact hpaths
    apply hp.imp
    intro f1 f2 hne a ha1 ha2
    obtain ⟨m1, hm1, rfl⟩ := List.mem_map.mp ha1
    obtain ⟨m2, hm2, he⟩ := List.mem_map.mp ha2
    apply hne
    rw [← searchFileR_file isDefLine refMatch colOf textOf f1.1 f1.2 m1 hm1,
      ← searchFileR_file isDefLine refMatch colOf textOf f2.1 f2.2 m2 hm2, ← he]

/-- C9: for every resolver invocation (definition and whole-word reference
tests abstracted as line predicates), whatever order the per-file match
lists arrive from the worker channel, the location recorded as the symbol's
definition never also appears in the reference list: the count of
references equal to the definition location is zero. -/
theorem resolve_def_not_in_refs (isDefLine refMatch : String → Bool) (colOf : String → Int)
    (textOf : String → String) (files : List (String × List String))
    (delivered : List (List RMatch))
    (hdel : delivered.Perm
      (files.map (fun f => searchFileR isDefLine refMatch colOf textOf f.1 f.2)))
    (hpaths : (files.map Prod.fst).Nodup) :
    (resolveGather delivered.flatten).2.countP
      (fun l => (resolveGather delivered.flatten).1 == some l) = 0 := by
  have hnd : ((delivered.flatten).map (fun m => m.loc)).Nodup := by
    have hperm := (hdel.flatten).map (fun m => m.loc)
    exact hperm.nodup_iff.mpr
      (flatten_locs_nodup isDefLine refMatch colOf textOf files hpaths)
  have hmain := gather_invariant delivered.flatten none [] hnd (by simp) (by simp) (by simp)
  rw [List.countP_eq_zero]
  intro a ha
  cases hdef : (resolveGather delivered.flatten).1 with
  | none => simp
  | some L =>
    have hni : L ∉ (resolveGather delivered.flatten).2 := hmain L hdef
    simp only [beq_iff_eq, Option.some.injEq]
    intro h
    exact hni (h ▸ ha)

/-- C9 witness: the spec's end-to-end example — `a.py` defines `foo`,
`b.py` references it — delivered in file order. -/
theorem resolve_def_not_in_refs_witness :
    (resolveGather ([("a.py", ["def foo():"]), ("b.py", ["foo()"])].map
      (fun f => searchFileR (fun l => l == "def foo():") (fun l => l == "foo()")
        (fun _ => 1) (fun l => l) f.1 f.2)).flatten).2.countP
      (fun l => (resolveGather ([("a.py", ["def foo():"]), ("b.py", ["foo()"])].map
        (fun f => searchFileR (fun l => l == "def foo():") (fun l => l == "foo()")
          (fun _ => 1) (fun l => l) f.1 f.2)).flatten).1 == some l) = 0 :=
  resolve_def_not_in_refs (fun l => l == "def foo():") (fun l => l == "foo()")
    (fun _ => 1) (fun l => l) [("a.py", ["def foo():"]), ("b.py", ["foo()"])]
    ([("a.py", ["def foo():"]), ("b.py", ["foo()"])].map
      (fun f => searchFileR (fun l => l == "def foo():") (fun l => l == "foo()")
        (fun _ => 1) (fun l => l) f.1 f.2))
    (List.Perm.refl _) (by decide)

end Resolver

namespace Analyzer

/-- Symbol record from the code-analyzer source. -/
structure Symbol where
  name : String
  type : String
  line : Nat
  endLine : Nat
  signature : String
  docString : String
  parent : String
  decorators : List String
deriving Repr, DecidableEq

/-- FileAnalysis record from the code-analyzer source. -/
structure FileAnalysis where
  path : String
  language : String
  symbols : List Symbol
  imports : List String
  lineCount : Nat
  error : String
deriving Repr, DecidableEq

/-- LanguagePatterns record: each regex of the source's per-language table is
abstracted as a `FindStringSubmatch`-shaped matcher (`none` result = no
match; `some groups` = the submatch list, index 0 the whole match).  A `none`
field is a nil pattern. -/
structure LanguagePatterns where
  funcPat : Option (String → Option (List String))
  classPat : Option (String → Option (List String))
  methodPat : Option (String → Option (List String))
  importPat : Option (String → Option (List String))
  decoratorPat : Option (String → Option (List String))
  docStringPat : Option (String → Option (List String))
  variablePat : Option (String → Option (List String))

/-- Map all characters of a string to lower case (`strings.ToLower`). -/
def toLowerStr (s : String) : String := String.mk (s.data.map Char.toLower)

/-- Embedding of `filepath.Ext`: the suffix from the final dot, dot included;
empty when the name has no dot. -/
def extOf (name : String) : String :=
  if name.data.contains '.' then
    String.mk ('.' :: (name.data.reverse.takeWhile (fun c => c ≠ '.')).reverse)
  else ""

/-- Embedding of `getLanguage`: switch on the lowercased extension. -/
def getLanguage (path : String) : String :=
  let e := toLowerStr (extOf path)
  if e = ".py" then "python"
  else if e = ".go" then "go"
  else if e = ".js" ∨ e = ".jsx" ∨ e = ".mjs" then "javascript"
  else if e = ".ts" ∨ e = ".tsx" then "typescript"
  else ""

/-- The language pattern table of the source, with the four languages'
regex contents abstracted: exactly python, go, javascript and typescript
have a table, every other language string maps to nil. -/
def languagePatternsModel (py goP js ts : LanguagePatterns) :
    String → Option LanguagePatterns :=
  fun l =>
    if l = "python" then some py
    else if l = "go" then some goP
    else if l = "javascript" then some js
    else if l = "typescript" then some ts
    else none

/-- Per-file scanning state of `analyzeFile`, threaded line to line. -/
structure ScanState where
  currentClass : String
  pendingDecorators : List String
  inMultilineImport : Bool
  importBuffer : String
  symbols : List Symbol
  imports : List String
deriving Repr, DecidableEq

/-- Embedding of `strings.TrimSpace`. -/
def trimStr (s : String) : String :=
  String.mk (((s.data.dropWhile Char.isWhitespace).reverse.dropWhile
    Char.isWhitespace).reverse)

/-- First-character test (`strings.HasPrefix` with a one-character pattern). -/
def startsWithChar (s : String) (c : Char) : Bool := s.data.take 1 = [c]

/-- Apply an optional pattern to a line (`p != nil && p.FindStringSubmatch(line) != nil`). -/
def matchOf (p : Option (String → Option (List String))) (line : String) :
    Option (List String) :=
  match p with
  | none => none
  | some f => f line

/-- Embedding of one iteration of the `analyzeFile` scanner loop: blank-line
skip, multi-line import accumulation, decorator capture, import, class and
function recognition (with the language-specific group selection of the
source), then decorator clearing and python current-class reset. -/
def processLine (lang : String) (pats : LanguagePatterns) (filt : String)
    (lineNum : Nat) (st : ScanState) (line : String) : ScanState :=
  let trimmed := trimStr line
  if trimmed = "" then st
  else if st.inMultilineImport then
    let buf := st.importBuffer ++ " " ++ trimmed
    if trimmed.data.contains ')' then
      { st with
        inMultilineImport := false,
        importBuffer := "",
        imports := st.imports ++ [trimStr buf] }
    else { st with importBuffer := buf }
  else
    match matchOf pats.decoratorPat line with
    | some m =>
      { st with pendingDecorators := st.pendingDecorators ++ [m.getD 2 ""] }
    | none =>
    match matchOf pats.importPat line with
    | some _ =>
      if line.data.contains '(' ∧ ¬line.data.contains ')' then
        { st with inMultilineImport := true, importBuffer := trimmed }
      else
        { st with
          imports := st.imports ++ [trimmed],
          symbols :=
            if filt = "" ∨ filt = "import" then
              st.symbols ++ [⟨trimmed, "import", lineNum, 0, "", "", "", []⟩]
            else st.symbols }
    | none =>
    match matchOf pats.classPat line with
    | some m =>
      let indent := (m.getD 1 "").length
      let className :=
        if lang = "javascript" ∨ lang = "typescript" then m.getD 1 "" else m.getD 2 ""
      let cls := if indent = 0 then className else st.currentClass
      { st with
        currentClass := cls,
        symbols :=
          if filt = "" ∨ filt = "class" then
            st.symbols ++ [⟨className, "class", lineNum, 0, "", "", "",
              st.pendingDecorators⟩]
          else st.symbols,
        pendingDecorators := [] }
    | none =>
    match matchOf pats.funcPat line with
    | some m =>
      let pick :=
        if lang = "python" then
          ((m.getD 2 ""), (m.getD 3 ""),
            decide (0 < (m.getD 1 "").length ∧ st.currentClass ≠ ""), st.currentClass)
        else if lang = "go" then
          (if m.getD 1 "" ≠ "" then ((m.getD 3 ""), (m.getD 4 ""), true, m.getD 2 "")
           else ((m.getD 3 ""), (m.getD 4 ""), false, st.currentClass))
        else
          (if m.getD 1 "" ≠ "" then ((m.getD 1 ""), "", false, st.currentClass)
           else ((m.getD 2 ""), "", false, st.currentClass))
      let symType := if pick.2.2.1 = true then "method" else "function"
      { st with
        currentClass := pick.2.2.2,
        symbols :=
          if filt = "" ∨ filt = symType then
            st.symbols ++ [⟨pick.1, symType, lineNum, 0, pick.2.1, "",
              (if pick.2.2.1 = true then pick.2.2.2 else ""), st.pendingDecorators⟩]
          else st.symbols,
        pendingDecorators := [] }
    | none =>
      let st1 :=
        if st.pendingDecorators ≠ [] ∧ ¬(startsWithChar trimmed '@' = true) then
          { st with pendingDecorators := [] }
        else st
      if lang = "python" ∧ st1.currentClass ≠ "" then
        match line.data with
        | [] => st1
        | c :: _ =>
          if c ≠ ' ' ∧ c ≠ '\t' ∧ ¬(startsWithChar trimmed '#' = true) then
            { st1 with currentClass := "" }
          else st1
      else st1

/-- The scanner loop of `analyzeFile`: thread the state through the lines,
incrementing the 1-based line counter. -/
def processLines (lang : String) (pats : LanguagePatterns) (filt : String) :
    Nat → ScanState → List String → ScanState
  | _, st, [] => st
  | n, st, l :: ls =>
    processLines lang pats filt (n+1) (processLine lang pats filt (n+1) st l) ls

/-- Embedding of `analyzeFile`: open error reported in the error field;
a language without a pattern table returns the freshly initialised analysis
record (empty symbol and import lists, line count zero) before the scanner
loop runs; otherwise run the scanner and report the final state together
with the number of scanned lines. -/
def analyzeFile (langPats : String → Option LanguagePatterns) (path : String)
    (content : Option (List String)) (filt : String) : FileAnalysis :=
  match content with
  | none =>
    { path := path, language := getLanguage path, symbols := [], imports := [],
      lineCount := 0, error := "cannot open file" }
  | some lines =>
    match langPats (getLanguage path) with
    | none =>
      { path := path, language := getLanguage path, symbols := [], imports := [],
        lineCount := 0, error := "" }
    | some pats =>
      let fin := processLines (getLanguage path) pats filt 0 ⟨"", [], false, "", [], []⟩ lines
      { path := path, language := getLanguage path, symbols := fin.symbols,
        imports := fin.imports, lineCount := lines.length, error := "" }

/-- C7 (amended): a file whose language has no pattern table yields an
analysis with an empty symbol list, an empty import list — and line count
zero, because the source returns before the scanner loop ever counts a
line. -/
theorem analyzeFile_unsupported (py goP js ts : LanguagePatterns) (path filt : String)
    (lines : List String)
    (h : languagePatternsModel py goP js ts (getLanguage path) = none) :
    analyzeFile (languagePatternsModel py goP js ts) path (some lines) filt =
      { path := path, language := getLanguage path, symbols := [], imports := [],
        lineCount := 0, error := "" } := by
  rw [analyzeFile]
  rw [h]

/-- Trivial pattern set whose matchers never fire; the counterexample only
exercises the nil-table branch, so the four tables' contents are
irrelevant. -/
def trivialPatterns : LanguagePatterns :=
  ⟨none, none, none, none, none, none, none⟩

/-- C7 (counterexample): a two-line file of an unsupported language (a
`.txt` file) is reported with line_count 0, not the file's number of lines
2: the claim "line_count equal to the file's number of lines" fails. -/
theorem analyzeFile_lineCount_counterexample :
    (analyzeFile (languagePatternsModel trivialPatterns trivialPatterns trivialPatterns
        trivialPatterns) "notes.txt" (some ["alpha", "beta"]) "").symbols = [] ∧
    (analyzeFile (languagePatternsModel trivialPatterns trivialPatterns trivialPatterns
        trivialPatterns) "notes.txt" (some ["alpha", "beta"]) "").lineCount = 0 ∧
    ¬((analyzeFile (languagePatternsModel trivialPatterns trivialPatterns trivialPatterns
        trivialPatterns) "notes.txt" (some ["alpha", "beta"]) "").lineCount =
      (["alpha", "beta"] : List String).length) := by
  refine ⟨?_, ?_, ?_⟩ <;> decide

/-- C7 witness: the amended claim evaluated at the same concrete input. -/
theorem analyzeFile_unsupported_witness :
    analyzeFile (languagePatternsModel trivialPatterns trivialPatterns trivialPatterns
        trivialPatterns) "notes.txt" (some ["alpha", "beta"]) "" =
      { path := "notes.txt", language := getLanguage "notes.txt", symbols := [],
        imports := [], lineCount := 0, error := "" } :=
  analyzeFile_unsupported trivialPatterns trivialPatterns trivialPatterns trivialPatterns
    "notes.txt" "" ["alpha", "beta"] rfl

end Analyzer

namespace Indexer

/-- Filesystem tree node: the indexer's input world.  A directory entry is a
name plus children; a file entry carries the metadata `os.FileInfo`
exposes. -/
inductive FSNode where
  | file (name : String) (size : Int) (modTime : Int) : FSNode
  | dir (name : String) (children : List FSNode) : FSNode

/-- Name of a node (`info.Name()`). -/
def nodeName : FSNode → String
  | .file n _ _ => n
  | .dir n _ => n

/-- IndexJob record from the file-indexer source; paths are root-relative
component lists (the model of the strings `filepath.Walk` passes). -/
structure IndexJob where
  path : List String
  name : String
  size : Int
  modTime : Int
  isDir : Bool
deriving Repr, DecidableEq

/-- FileInfo record from the file-indexer source. -/
structure FileInfo where
  path : List String
  name : String
  size : Int
  extension : String
  modTime : Int
  isDir : Bool
  hash : String
deriving Repr, DecidableEq

/-- Extension filter test of the walk callback: nil filter admits
everything, otherwise the lowercased `filepath.Ext` must be in the set.
`ef` models the already-parsed comma-separated `-ext` flag (normalised,
dot-prepended, lowercased). -/
def extOk (ef : Option (List String)) (name : String) : Bool :=
  match ef with
  | none => true
  | some exts => exts.contains (Analyzer.toLowerStr (Analyzer.extOf name))

/-- Depth pruning test of the walk callback: active only when `maxDepth >= 0`,
and depth is the separator count relative to the root. -/
def depthPruned (maxDepth : Int) (depth : Nat) : Bool :=
  decide (0 ≤ maxDepth) && decide (maxDepth < (depth : Int))

/-- Directory pruning test of the walk callback: a non-root directory whose
name is in the exclude set or starts with a dot is skipped entirely. -/
def dirPruned (excl : List String) (n : String) : Bool :=
  decide (n ≠ ".") && (excl.contains n || Analyzer.startsWithChar n '.')

mutual
/-- Embedding of the `filepath.Walk` callback of `indexDirectory`
(lines 86-121 of the source): collect one IndexJob per admitted file, prune
directories by depth and by the exclude/hidden rule.  `parent` is the
component path of the node's parent; the walk starts with `parent = []` at
the root node. -/
def walkNode (ef : Option (List String)) (excl : List String) (md : Int)
    (parent : List String) : FSNode → List IndexJob
  | .file n sz mt =>
    if depthPruned md parent.length then []
    else if extOk ef n then [⟨parent ++ [n], n, sz, mt, false⟩]
    else []
  | .dir n cs =>
    if depthPruned md parent.length then []
    else if dirPruned excl n then []
    else walkList ef excl md (parent ++ [n]) cs

/-- Walk the children of an admitted directory in order. -/
def walkList (ef : Option (List String)) (excl : List String) (md : Int)
    (parent : List String) : List FSNode → List IndexJob
  | [] => []
  | c :: cs => walkNode ef excl md parent c ++ walkList ef excl md parent cs
end

/-- Embedding of `processFile`: build the FileInfo of a job; the content
hash (md5 of the file body, files under 10 MiB only) is abstracted as
`hashFn` of the path. -/
def processFile (withHash : Bool) (hashFn : List String → String)
    (job : IndexJob) : FileInfo :=
  { path := job.path, name := job.name, size := job.size,
    extension := Analyzer.extOf job.name, modTime := job.modTime, isDir := job.isDir,
    hash :=
      if withHash ∧ ¬job.isDir ∧ job.size < 10*1024*1024 then hashFn job.path else "" }

mutual
/-- Well-formed tree: sibling names are distinct in every directory, the
invariant every real filesystem provides. -/
def wfNode : FSNode → Bool
  | .file _ _ _ => true
  | .dir _ cs => decide ((cs.map nodeName).Nodup) && wfList cs

/-- All nodes of a list are well-formed. -/
def wfList : List FSNode → Bool
  | [] => true
  | c :: cs => wfNode c && wfList cs
end

mutual
/-- Spec-side reading of claim C5's condition, written over the tree: the
target path `p` names a file of the tree that passes the extension filter,
is within the depth limit, and lies under no pruned (excluded or hidden,
non-root) directory. -/
def goodFile (ef : Option (List String)) (excl : List String) (md : Int)
    (parent p : List String) : FSNode → Bool
  | .file n _ _ =>
    !(depthPruned md parent.length) && extOk ef n && decide (p = parent ++ [n])
  | .dir n cs =>
    !(depthPruned md parent.length) && !(dirPruned excl n) &&
      goodList ef excl md (parent ++ [n]) p cs

/-- Some node of the list satisfies the claim's condition for `p`. -/
def goodList (ef : Option (List String)) (excl : List String) (md : Int)
    (parent p : List String) : List FSNode → Bool
  | [] => false
  | c :: cs =>
    goodFile ef excl md parent p c || goodList ef excl md parent p cs
end

theorem goodList_exists (ef : Option (List String)) (excl : List String) (md : Int)
    (q p : List String) (cs : List FSNode) :
    goodList ef excl md q p cs = true ↔
      ∃ c ∈ cs, goodFile ef excl md q p c = true := by
  induction cs with
  | nil => simp [goodList]
  | cons c cs ih =>
    rw [goodList, Bool.or_eq_true, ih]
    constructor
    · rintro (h | ⟨c', hc', h⟩)
      · exact ⟨c, List.mem_cons_self c cs, h⟩
      · exact ⟨c', List.mem_cons_of_mem c hc', h⟩
    · rintro ⟨c', hc', h⟩
      rcases List.mem_cons.mp hc' with rfl | hm
      · exact Or.inl h
      · exact Or.inr ⟨c', hm, h⟩

theorem good_prefix_of_good (ef : Option (List String)) (excl : List String) (md : Int) :
    (t : FSNode) → (parent p : List String) →
    goodFile ef excl md parent p t = true → (parent ++ [nodeName t]) <+: p
  | .file n sz mt, parent, p, h => by
    simp only [goodFile, Bool.and_eq_true, decide_eq_true_eq] at h
    show (parent ++ [n]) <+: p
    rw [h.2]
  | .dir n cs, parent, p, h => by
    simp only [goodFile, Bool.and_eq_true] at h
    obtain ⟨c, hc, hgc⟩ := (goodList_exists ef excl md (parent ++ [n]) p cs).mp h.2
    have hrec := good_prefix_of_good ef excl md c (parent ++ [n]) p hgc
    show (parent ++ [n]) <+: p
    exact List.IsPrefix.trans ⟨[nodeName c], rfl⟩ hrec
termination_by t => sizeOf t
decreasing_by
  have := List.sizeOf_lt_of_mem hc
  simp
  omega

theorem good_same_name (ef : Option (List String)) (excl : List String) (md : Int)
    (c c' : FSNode) (parent p : List String)
    (h1 : goodFile ef excl md parent p c = true)
    (h2 : goodFile ef excl md parent p c' = true) : nodeName c = nodeName c' := by
  have p1 := good_prefix_of_good ef excl md c parent p h1
  have p2 := good_prefix_of_good ef excl md c' parent p h2
  have hlen : (parent ++ [nodeName c]).length = (parent ++ [nodeName c']).length := by simp
  have heq : parent ++ [nodeName c] = parent ++ [nodeName c'] := by
    rcases List.prefix_or_prefix_of_prefix p1 p2 with h | h
    · exact h.eq_of_length hlen
    · exact (h.eq_of_length hlen.symm).symm
  simpa using List.append_cancel_left heq

mutual
/-- The walk emits exactly one job at path `p` when the claim's condition
holds for `p`, and none otherwise. -/
theorem walkNode_count (ef : Option (List String)) (excl : List String) (md : Int)
    (p : List String) :
    (t : FSNode) → (parent : List String) → wfNode t = true →
    (walkNode ef excl md parent t).countP (fun j => decide (j.path = p)) =
      if goodFile ef excl md parent p t = true then 1 else 0
  | .file n sz mt, parent, hwf => by
    by_cases hd : depthPruned md parent.length = true
    · simp [walkNode, goodFile, hd]
    · by_cases he : extOk ef n = true
      · by_cases hp : p = parent ++ [n]
        · simp [walkNode, goodFile, hd, he, hp]
        · have hp' : ¬(parent ++ [n] = p) := fun h => hp h.symm
          simp [walkNode, goodFile, hd, he, hp, hp']
      · simp [walkNode, goodFile, hd, he]
  | .dir n cs, parent, hwf => by
    by_cases hd : depthPruned md parent.length = true
    · simp [walkNode, goodFile, hd]
    · by_cases hx : dirPruned excl n = true
      · simp [walkNode, goodFile, hd, hx]
      · have hwf' : (decide ((cs.map nodeName).Nodup) && wfList cs) = true := by
          simpa [wfNode] using hwf
        have hlist := walkList_count ef excl md p cs (parent ++ [n]) hwf'
        simp [walkNode, goodFile, hd, hx, hlist]

/-- List version of `walkNode_count`, under distinct sibling names. -/
theorem walkList_count (ef : Option (List String)) (excl : List String) (md : Int)
    (p : List String) :
    (cs : List FSNode) → (parent : List String) →
    (decide ((cs.map nodeName).Nodup) && wfList cs) = true →
    (walkList ef excl md parent cs).countP (fun j => decide (j.path = p)) =
      if goodList ef excl md parent p cs = true then 1 else 0
  | [], _, _ => by simp [walkList, goodList]
  | c :: cs, parent, h => by
    have h' : (nodeName c ∉ cs.map nodeName) ∧ (cs.map nodeName).Nodup ∧
        wfNode c = true ∧ wfList cs = true := by
      simp only [Bool.and_eq_true, decide_eq_true_eq, List.map_cons,
        List.nodup_cons, wfList] at h
      exact ⟨h.1.1, h.1.2, h.2.1, h.2.2⟩
    rw [walkList, List.countP_append, goodList]
    rw [walkNode_count ef excl md p c parent h'.2.2.1]
    rw [walkList_count ef excl md p cs parent (by simp [h'.2.1, h'.2.2.2])]
    by_cases hgc : goodFile ef excl md parent p c = true
    · by_cases hgl : goodList ef excl md parent p cs = true
      · exfalso
        obtain ⟨c', hc', hgc'⟩ := (goodList_exists ef excl md parent p cs).mp hgl
        have hname := good_same_name ef excl md c c' parent p hgc hgc'
        exact h'.1 (hname ▸ List.mem_map_of_mem nodeName hc')
      · simp [hgc, hgl]
    · simp [hgc]
end

/-- C5: for every tree with distinct sibling names and every delivery order
of the worker results, the indexer's file list contains exactly one entry
whose path is `p` when `p` names a file passing the extension filter that
lies under no pruned (excluded, hidden, or beyond the depth limit)
directory — and no entry otherwise. -/
theorem indexer_exactly_one (ef : Option (List String)) (excl : List String) (md : Int)
    (withHash : Bool) (hashFn : List String → String) (root : FSNode)
    (delivered : List FileInfo) (p : List String)
    (hwf : wfNode root = true)
    (hdel : delivered.Perm
      ((walkNode ef excl md [] root).map (processFile withHash hashFn))) :
    delivered.countP (fun fi => decide (fi.path = p)) =
      if goodFile ef excl md [] p root = true then 1 else 0 := by
  rw [hdel.countP_eq, List.countP_map]
  exact walkNode_count ef excl md p root [] hwf

/-- Concrete tree for the C5 witness: a root with a matching file, a hidden
directory holding a matching file, and a subdirectory holding a matching
and a non-matching file. -/
def wTree : FSNode :=
  .dir "proj" [.file "a.py" 10 1, .dir ".git" [.file "b.py" 5 2],
    .dir "src" [.file "c.py" 7 3, .file "d.txt" 4 4]]

/-- C5 witness: with the `.py` extension filter and no depth limit, the
path `proj/src/c.py` gets exactly the count the claim's condition demands. -/
theorem indexer_exactly_one_witness :
    ((walkNode (some [".py"]) ["node_modules"] (-1) [] wTree).map
        (processFile true (fun _ => "h"))).countP
      (fun fi => decide (fi.path = ["proj", "src", "c.py"])) =
      if goodFile (some [".py"]) ["node_modules"] (-1) [] ["proj", "src", "c.py"] wTree =
          true then 1 else 0 :=
  indexer_exactly_one (some [".py"]) ["node_modules"] (-1) true (fun _ => "h") wTree
    ((walkNode (some [".py"]) ["node_modules"] (-1) [] wTree).map
      (processFile true (fun _ => "h")))
    ["proj", "src", "c.py"] (by decide) (List.Perm.refl _)

end Indexer
